import Mathlib

/-!
Shallow embedding of `src/markov.ts` (a Markov-chain library over arbitrary
JSON-representable symbols) together with proofs about the claims of the
specification.

Modelling conventions:
* JS values handled by the library are modelled by the inductive type `Json`
  (strings, integer numbers, booleans, null, arrays, objects).  JS numbers are
  restricted to integers: the library only ever creates integer counts and
  state sizes, and the claims only concern integer-valued numbers.
* JS objects are modelled as insertion-ordered association lists with unique
  keys maintained by `objSet` (property write: update in place or append),
  exactly the observable behaviour of plain JS objects for non-index keys.
  JS additionally reorders integer-like keys first during enumeration; no
  claim depends on enumeration of integer-like keys, and the association-list
  order stands for the enumeration (`for ... in`) order.
* `undefined` is modelled by `Option Json` (`none` = `undefined`); thrown
  exceptions are modelled by `Option`/`Except` results of the functions that
  can throw.
* `Math.random()` is modelled by an explicit parameter `u : ℚ` with
  `0 ≤ u < 1` (one parameter per call; `walk` receives a stream `Nat → ℚ`).
-/

/-- JSON-representable JS values (numbers restricted to integers). -/
inductive Json where
  | null : Json
  | bool : Bool → Json
  | num : Int → Json
  | str : String → Json
  | arr : List Json → Json
  | obj : List (String × Json) → Json
deriving Repr

mutual

/-- Structural equality test for `Json` values. -/
def Json.beq : Json → Json → Bool
  | .null, .null => true
  | .bool a, .bool b => a == b
  | .num a, .num b => a == b
  | .str a, .str b => a == b
  | .arr xs, .arr ys => Json.beqList xs ys
  | .obj fs, .obj gs => Json.beqFields fs gs
  | _, _ => false

/-- Structural equality test for lists of `Json` values. -/
def Json.beqList : List Json → List Json → Bool
  | [], [] => true
  | x :: xs, y :: ys => Json.beq x y && Json.beqList xs ys
  | _, _ => false

/-- Structural equality test for field lists. -/
def Json.beqFields : List (String × Json) → List (String × Json) → Bool
  | [], [] => true
  | (k, v) :: fs, (l, w) :: gs => k == l && Json.beq v w && Json.beqFields fs gs
  | _, _ => false

end

mutual

theorem Json.eq_of_beq : ∀ {a b : Json}, Json.beq a b = true → a = b
  | .null, .null, _ => rfl
  | .bool _, .bool _, h => by
    simp only [Json.beq, beq_iff_eq] at h; exact congrArg Json.bool h
  | .num _, .num _, h => by
    simp only [Json.beq, beq_iff_eq] at h; exact congrArg Json.num h
  | .str _, .str _, h => by
    simp only [Json.beq, beq_iff_eq] at h; exact congrArg Json.str h
  | .arr _, .arr _, h => congrArg Json.arr (Json.eqList_of_beq h)
  | .obj _, .obj _, h => congrArg Json.obj (Json.eqFields_of_beq h)
  | .null, .bool _, h | .null, .num _, h | .null, .str _, h | .null, .arr _, h
  | .null, .obj _, h | .bool _, .null, h | .bool _, .num _, h | .bool _, .str _, h
  | .bool _, .arr _, h | .bool _, .obj _, h | .num _, .null, h | .num _, .bool _, h
  | .num _, .str _, h | .num _, .arr _, h | .num _, .obj _, h | .str _, .null, h
  | .str _, .bool _, h | .str _, .num _, h | .str _, .arr _, h | .str _, .obj _, h
  | .arr _, .null, h | .arr _, .bool _, h | .arr _, .num _, h | .arr _, .str _, h
  | .arr _, .obj _, h | .obj _, .null, h | .obj _, .bool _, h | .obj _, .num _, h
  | .obj _, .str _, h | .obj _, .arr _, h => by simp [Json.beq] at h

theorem Json.eqList_of_beq : ∀ {xs ys : List Json}, Json.beqList xs ys = true → xs = ys
  | [], [], _ => rfl
  | x :: xs, y :: ys, h => by
    simp only [Json.beqList, Bool.and_eq_true] at h
    exact congrArg₂ List.cons (Json.eq_of_beq h.1) (Json.eqList_of_beq h.2)
  | [], _ :: _, h | _ :: _, [], h => by simp [Json.beqList] at h

theorem Json.eqFields_of_beq :
    ∀ {fs gs : List (String × Json)}, Json.beqFields fs gs = true → fs = gs
  | [], [], _ => rfl
  | (k, v) :: fs, (l, w) :: gs, h => by
    simp only [Json.beqFields, Bool.and_eq_true, beq_iff_eq] at h
    have : (k, v) = (l, w) := by
      rw [h.1.1]; exact congrArg _ (Json.eq_of_beq h.1.2)
    exact congrArg₂ List.cons this (Json.eqFields_of_beq h.2)
  | [], _ :: _, h | _ :: _, [], h => by simp [Json.beqFields] at h

end

mutual

theorem Json.beq_refl : ∀ a : Json, Json.beq a a = true
  | .null => rfl
  | .bool _ => by simp [Json.beq]
  | .num _ => by simp [Json.beq]
  | .str _ => by simp [Json.beq]
  | .arr xs => Json.beqList_refl xs
  | .obj fs => Json.beqFields_refl fs

theorem Json.beqList_refl : ∀ xs : List Json, Json.beqList xs xs = true
  | [] => rfl
  | x :: xs => by
    simp only [Json.beqList, Bool.and_eq_true]
    exact ⟨Json.beq_refl x, Json.beqList_refl xs⟩

theorem Json.beqFields_refl : ∀ fs : List (String × Json), Json.beqFields fs fs = true
  | [] => rfl
  | (k, v) :: fs => by
    simp only [Json.beqFields, Bool.and_eq_true, beq_self_eq_true, true_and]
    exact ⟨Json.beq_refl v, Json.beqFields_refl fs⟩

end

instance : DecidableEq Json := fun a b =>
  if h : Json.beq a b = true then isTrue (Json.eq_of_beq h)
  else isFalse (fun he => h (he ▸ Json.beq_refl a))

/-- `export const BEGIN = "@@MARKOV_CHAIN_BEGIN"` (markov.ts line 7). -/
def BEGIN : String := "@@MARKOV_CHAIN_BEGIN"

/-- `export const END = "@@MARKOV_CHAIN_END"` (markov.ts line 15). -/
def END : String := "@@MARKOV_CHAIN_END"

/-- `export const DEFAULT_STATE_SIZE = 1` (markov.ts line 23). -/
def DEFAULT_STATE_SIZE : Int := 1

/-- First-match lookup in an association list (JS property read on an object
whose keys are unique). -/
def objGet : List (String × Json) → String → Option Json
  | [], _ => none
  | (k', v') :: rest, k => if k' = k then some v' else objGet rest k

/-- JS property write `o[k] = v`: update in place if the key exists,
otherwise append (JS objects keep first-insertion position, last value). -/
def objSet : List (String × Json) → String → Json → List (String × Json)
  | [], k, v => [(k, v)]
  | (k', v') :: rest, k, v =>
    if k' = k then (k, v) :: rest else (k', v') :: objSet rest k v

/-- Re-insert every binding through `objSet`.  On lists with unique keys this
is the identity; it normalises duplicate keys to JS-object semantics
(first position, last value), which is how a JS object would hold them. -/
def objDedup (fs : List (String × Json)) : List (String × Json) :=
  fs.foldl (fun acc kv => objSet acc kv.1 kv.2) []

/-- Unique-key check for the keys of an association list. -/
def keysUnique : List String → Bool
  | [] => true
  | k :: ks => !ks.contains k && keysUnique ks

/-- JS falsiness of a defined value (NaN and -0 are outside the modelled
domain). -/
def jsFalsy : Json → Bool
  | Json.null => true
  | Json.bool b => !b
  | Json.num n => n == 0
  | Json.str s => s == ""
  | _ => false

/-- Decimal digits of a natural number, least significant first. -/
def natCharsRev (n : Nat) : List Char :=
  if h : n < 10 then [Char.ofNat (48 + n)]
  else Char.ofNat (48 + n % 10) :: natCharsRev (n / 10)
decreasing_by exact Nat.div_lt_self (by omega) (by omega)

/-- Decimal representation of a natural number. -/
def natChars (n : Nat) : List Char := (natCharsRev n).reverse

/-- Decimal string for a natural number (the text `toString` would give;
used for JS index property keys). -/
def decimalStr (n : Nat) : String := String.mk (natChars n)

/-- Own enumerable entries of a value, as visited by `for (const k in x)`
together with the corresponding reads `x[k]`: objects yield their fields
(duplicate association-list keys, which a JS object cannot hold, are
normalised by `objDedup`), strings and arrays yield index properties, and
primitives yield nothing. -/
def jsEnumEntries : Json → List (String × Json)
  | Json.obj fs => objDedup fs
  | Json.str s =>
    ((List.range s.length).zip (s.data.map (fun c => Json.str (String.mk [c])))).map
      (fun p => (decimalStr p.1, p.2))
  | Json.arr xs =>
    ((List.range xs.length).zip xs).map (fun p => (decimalStr p.1, p.2))
  | _ => []

/-- `Object.assign(\x7b\x7d, x)`: shallow copy of the own enumerable
properties of `x` into a fresh object (`null` and `undefined` sources are
skipped, primitives contribute nothing beyond their index properties). -/
def jsAssignCopy : Option Json → Json
  | some j => Json.obj (jsEnumEntries j)
  | none => Json.obj []

mutual

/-- JS `ToString` as used by property-key coercion (arrays join their
elements with commas, `null`/`undefined` elements become empty). -/
def jsToString : Json → String
  | Json.null => "null"
  | Json.bool true => "true"
  | Json.bool false => "false"
  | Json.num n => toString n
  | Json.str s => s
  | Json.arr xs => String.intercalate "," (jsToStringList xs)
  | Json.obj _ => "[object Object]"

/-- Array elements under `Array.prototype.toString`. -/
def jsToStringList : List Json → List String
  | [] => []
  | Json.null :: xs => "" :: jsToStringList xs
  | x :: xs => jsToString x :: jsToStringList xs

end

/-- JS `ToPropertyKey` of a possibly-undefined value. -/
def jsKeyOf : Option Json → String
  | none => "undefined"
  | some j => jsToString j

/-- JS property read `x.k`: `none` models a thrown TypeError (reading a
property of `null`; `undefined` receivers are handled at the call sites),
`some none` models `undefined`. -/
def jsGetField : Json → String → Option (Option Json)
  | Json.null, _ => none
  | Json.obj fs, k => some (objGet (objDedup fs) k)
  | _, _ => some none

/-- JS read of `x.length` for a possibly-undefined `x` (throws on
`null`/`undefined`, yields the length for arrays and strings, the `length`
field for objects, `undefined` otherwise). -/
def jsLength : Option Json → Option (Option Json)
  | none => none
  | some Json.null => none
  | some (Json.arr xs) => some (some (Json.num xs.length))
  | some (Json.str s) => some (some (Json.num s.length))
  | some (Json.obj fs) => some (objGet (objDedup fs) "length")
  | some _ => some none

/-- Number of iterations of `for (let i = 0; i < len; i++)` for a
possibly-undefined `len` (comparison with `undefined` is false; non-numeric
lengths do not occur in the claims and are modelled as zero iterations). -/
def jsLoopBound : Option Json → Nat
  | some (Json.num n) => n.toNat
  | _ => 0

/-- JS index read `x[i]` for natural `i`. -/
def jsIndex : Json → Nat → Option Json
  | Json.arr xs, i => xs[i]?
  | Json.str s, i => (s.data[i]?).map (fun c => Json.str (String.mk [c]))
  | Json.obj fs, i => objGet (objDedup fs) (decimalStr i)
  | _, _ => none

/-- JS destructuring `const [a, b] = v`: fails (TypeError) unless `v` is
iterable (an array or a string); otherwise yields the first two elements,
`undefined` when absent. -/
def jsDestr2 : Option Json → Option (Option Json × Option Json)
  | some (Json.arr xs) => some (xs[0]?, xs[1]?)
  | some (Json.str s) =>
    some ((s.data[0]?).map (fun c => Json.str (String.mk [c])),
      (s.data[1]?).map (fun c => Json.str (String.mk [c])))
  | _ => none

/-- `Array.prototype.slice(start, stop)` with JS clamping of the (possibly
negative) `Int` bounds. -/
def jsSlice (xs : List Json) (start stop : Int) : List Json :=
  let n : Int := xs.length
  let lo : Int := if start < 0 then max (n + start) 0 else min start n
  let hi : Int := if stop < 0 then max (n + stop) 0 else min stop n
  (xs.drop lo.toNat).take (hi.toNat - lo.toNat)

/-- JS index read `x[i]` for a possibly negative `Int` index on an array. -/
def jsIndexInt (xs : List Json) (i : Int) : Option Json :=
  if i < 0 then none else xs[i.toNat]?

/-- Lower-case hexadecimal digit character. -/
def hexDigit (n : Nat) : Char :=
  if n < 10 then Char.ofNat (48 + n) else Char.ofNat (87 + n)

/-- `JSON.stringify` escaping of one character inside a string literal. -/
def escapeChar (c : Char) : List Char :=
  if c = '"' then ['\\', '"']
  else if c = '\\' then ['\\', '\\']
  else if c = Char.ofNat 8 then ['\\', 'b']
  else if c = Char.ofNat 9 then ['\\', 't']
  else if c = Char.ofNat 10 then ['\\', 'n']
  else if c = Char.ofNat 12 then ['\\', 'f']
  else if c = Char.ofNat 13 then ['\\', 'r']
  else if c.toNat < 32 then
    ['\\', 'u', '0', '0', hexDigit (c.toNat / 16), hexDigit (c.toNat % 16)]
  else [c]

/-- Escape every character of a string body. -/
def escapeList : List Char → List Char
  | [] => []
  | c :: cs => escapeChar c ++ escapeList cs

/-- Decimal representation of an integer (JS number formatting restricted to
integers). -/
def intChars : Int → List Char
  | Int.ofNat n => natChars n
  | Int.negSucc n => '-' :: natChars (n + 1)

/-- `JSON.stringify` of a string, as a character list. -/
def encodeStrL (s : String) : List Char :=
  '"' :: escapeList s.data ++ ['"']

mutual

/-- `JSON.stringify(v)` (no indentation), as a character list. -/
def encodeJ : Json → List Char
  | Json.null => ['n', 'u', 'l', 'l']
  | Json.bool true => ['t', 'r', 'u', 'e']
  | Json.bool false => ['f', 'a', 'l', 's', 'e']
  | Json.num n => intChars n
  | Json.str s => encodeStrL s
  | Json.arr xs => '[' :: encodeList xs ++ [']']
  | Json.obj fs => '{' :: encodeFields fs ++ ['}']

/-- Comma-separated encodings of array elements. -/
def encodeList : List Json → List Char
  | [] => []
  | [x] => encodeJ x
  | x :: xs => encodeJ x ++ ',' :: encodeList xs

/-- Comma-separated encodings of object fields. -/
def encodeFields : List (String × Json) → List Char
  | [] => []
  | [(k, v)] => encodeStrL k ++ ':' :: encodeJ v
  | (k, v) :: fs => encodeStrL k ++ ':' :: encodeJ v ++ ',' :: encodeFields fs

end

/-- `JSON.stringify(v)` as a `String`. -/
def stringifyJson (v : Json) : String := String.mk (encodeJ v)

mutual

/-- Structural size used as parser fuel bound. -/
def jsize : Json → Nat
  | Json.null | Json.bool _ | Json.num _ | Json.str _ => 1
  | Json.arr xs => 1 + jsizeList xs
  | Json.obj fs => 1 + jsizeFields fs

/-- Size of array elements plus one unit per element. -/
def jsizeList : List Json → Nat
  | [] => 0
  | x :: xs => 1 + jsize x + jsizeList xs

/-- Size of object fields plus one unit per field. -/
def jsizeFields : List (String × Json) → Nat
  | [] => 0
  | (_, v) :: fs => 1 + jsize v + jsizeFields fs

end

mutual

/-- Well-formedness of a `Json` value as the image of an actual JS value:
association lists representing objects have unique keys at every level. -/
def wfJson : Json → Bool
  | Json.null | Json.bool _ | Json.num _ | Json.str _ => true
  | Json.arr xs => wfJsonList xs
  | Json.obj fs => keysUnique (fs.map Prod.fst) && wfJsonFields fs

/-- Well-formedness of array elements. -/
def wfJsonList : List Json → Bool
  | [] => true
  | x :: xs => wfJson x && wfJsonList xs

/-- Well-formedness of object field values. -/
def wfJsonFields : List (String × Json) → Bool
  | [] => true
  | (_, v) :: fs => wfJson v && wfJsonFields fs

end

/-- `createStateKey` (markov.ts lines 228-233): wraps a non-array value in a
one-element array and returns `JSON.stringify` of the resulting array. -/
def createStateKey (originalState : Json) : String :=
  match originalState with
  | Json.arr xs => stringifyJson (Json.arr xs)
  | x => stringifyJson (Json.arr [x])

/-- `createBeginState` (markov.ts lines 241-247): `stateSize` copies of
`BEGIN` (the JS loop yields none for a non-positive count). -/
def createBeginState (stateSize : Int) : List Json :=
  List.replicate stateSize.toNat (Json.str BEGIN)

/-- `x || d` for a number `x` (falsy `0` falls back to the default). -/
def jsOrInt (x d : Int) : Int := if x = 0 then d else x

/-- Error cases of `Chain.build` (markov.ts lines 57-59 and 66-70). -/
inductive BuildErr where
  | invalidCorpus : BuildErr
  | invalidRun : BuildErr
deriving Repr, DecidableEq

/-- `ngramEnd = ngramStart + options.stateSize || DEFAULT_STATE_SIZE`
(markov.ts line 82). -/
def windowEnd (stateSize : Int) (i : Nat) : Int :=
  jsOrInt ((i : Int) + stateSize) DEFAULT_STATE_SIZE

/-- `createStateKey(paddedRun.slice(ngramStart, ngramEnd))`
(markov.ts line 83). -/
def windowKey (stateSize : Int) (paddedRun : List Json) (i : Nat) : String :=
  createStateKey (Json.arr (jsSlice paddedRun i (windowEnd stateSize i)))

/-- `paddedRun[ngramEnd]` (markov.ts line 84); `none` is `undefined`. -/
def windowFollow (stateSize : Int) (paddedRun : List Json) (i : Nat) :
    Option Json :=
  jsIndexInt paddedRun (windowEnd stateSize i)

/-- `JSON.stringify(follow)` used as property key (markov.ts line 90);
`JSON.stringify(undefined)` is `undefined`, which as a property key
becomes the string `"undefined"`. -/
def windowFollowKey (stateSize : Int) (paddedRun : List Json) (i : Nat) :
    String :=
  match windowFollow stateSize paddedRun i with
  | some v => stringifyJson v
  | none => "undefined"

/-- `model[stateKey]` viewed as a field list (markov.ts lines 86-88): a
missing, falsy or non-object entry acts as the freshly created empty
object (`build` itself only ever stores objects there). -/
def curFieldsOf (model : List (String × Json)) (stateKey : String) :
    List (String × Json) :=
  match objGet model stateKey with
  | some v =>
    if jsFalsy v then []
    else
      match v with
      | Json.obj fs => fs
      | _ => []
  | none => []

/-- The fresh record `(value: follow, count: 0)` (markov.ts line 92).  A
follow of `undefined` cannot be represented as an object field and is
stored as `null`; it never occurs for the state sizes of the claims. -/
def initRec (follow : Option Json) : Json :=
  Json.obj [("value", follow.getD Json.null), ("count", Json.num 0)]

/-- `model[stateKey][followKey]`, or the fresh record when missing/falsy
(markov.ts lines 91-93). -/
def recOrInit (curFields : List (String × Json)) (followKey : String)
    (follow : Option Json) : Json :=
  match objGet curFields followKey with
  | some r => if jsFalsy r then initRec follow else r
  | none => initRec follow

/-- The numeric `count` field of a record; non-numeric or missing counts
(never stored by `build`) read as 0. -/
def recCountInt (r : Json) : Int :=
  match r with
  | Json.obj rs =>
    match objGet rs "count" with
    | some (Json.num c) => c
    | _ => 0
  | _ => 0

/-- `model[stateKey][followKey].count += 1` applied to the looked-up or
fresh record (markov.ts line 95). -/
def bumpedRec (curFields : List (String × Json)) (followKey : String)
    (follow : Option Json) : Json :=
  let rec0 := recOrInit curFields followKey follow
  match rec0 with
  | Json.obj rs => Json.obj (objSet rs "count" (Json.num (recCountInt rec0 + 1)))
  | _ => Json.obj [("count", Json.num (recCountInt rec0 + 1))]

/-- The body of the window loop of `Chain.build` (markov.ts lines 81-96)
for one window start `i` of the padded run: look up or create
`model[stateKey]` and `model[stateKey][followKey]` (initialising `count`
to 0) and increment the record's `count`. -/
def windowStep (stateSize : Int) (paddedRun : List Json)
    (model : List (String × Json)) (i : Nat) : List (String × Json) :=
  let stateKey := windowKey stateSize paddedRun i
  let followKey := windowFollowKey stateSize paddedRun i
  let follow := windowFollow stateSize paddedRun i
  let curFields := curFieldsOf model stateKey
  objSet model stateKey
    (Json.obj (objSet curFields followKey (bumpedRec curFields followKey follow)))

/-- Processing of one run of the corpus (markov.ts lines 72-96): pad with
`BEGIN`s and one `END`, then fold the window loop over window starts
`0 .. run.length`. -/
def processRun (stateSize : Int) (model : List (String × Json))
    (run : List Json) : List (String × Json) :=
  let beginPadding := createBeginState (jsOrInt stateSize DEFAULT_STATE_SIZE)
  let paddedRun := beginPadding ++ run ++ [Json.str END]
  (List.range (run.length + 1)).foldl (windowStep stateSize paddedRun) model

/-- The run loop of `Chain.build` (markov.ts lines 66-97): validates each
element and accumulates the model. -/
def buildRuns (stateSize : Int) :
    List Json → List (String × Json) → Except BuildErr (List (String × Json))
  | [], model => Except.ok model
  | r :: rs, model =>
    match r with
    | Json.arr run => buildRuns stateSize rs (processRun stateSize model run)
    | Json.null => Except.error BuildErr.invalidRun
    | Json.bool _ => Except.error BuildErr.invalidRun
    | Json.num _ => Except.error BuildErr.invalidRun
    | Json.str _ => Except.error BuildErr.invalidRun
    | Json.obj _ => Except.error BuildErr.invalidRun

/-- The `Chain` value: a configured state size (held exactly as the dynamic
value the constructor stored) and the transition-table object. -/
structure Chain where
  stateSize : Json
  model : Json
deriving Repr, DecidableEq

instance : DecidableEq (Except BuildErr Json) := fun a b =>
  match a, b with
  | .ok x, .ok y =>
    if h : x = y then isTrue (by rw [h])
    else isFalse (by intro hc; injection hc; contradiction)
  | .error e, .error f =>
    if h : e = f then isTrue (by rw [h])
    else isFalse (by intro hc; injection hc; contradiction)
  | .ok _, .error _ => isFalse (by intro hc; cases hc)
  | .error _, .ok _ => isFalse (by intro hc; cases hc)

/-- `Chain.build(corpus, options)` (markov.ts lines 53-100). -/
def Chain.build (corpus : Json) (stateSize : Int) : Except BuildErr Json :=
  match corpus with
  | Json.arr runs => (buildRuns stateSize runs []).map Json.obj
  | _ => Except.error BuildErr.invalidCorpus

/-- `options.stateSize || DEFAULT_STATE_SIZE` in the constructor
(markov.ts line 34); `none` models an absent/undefined option. -/
def effStateSize : Option Json → Json
  | some v => if jsFalsy v then Json.num DEFAULT_STATE_SIZE else v
  | none => Json.num DEFAULT_STATE_SIZE

/-- Coercion of the stored state size to the number used by `build`,
`createBeginState` and the slice arithmetic.  The claims only exercise
numeric state sizes; for other values JS would coerce at each comparison,
which is not modelled. -/
def jsToIntDefault : Json → Int
  | Json.num n => n
  | _ => 0

/-- `new Chain(corpusOrModel, options)` (markov.ts lines 33-41): a non-array
object is taken as a pre-built model, anything else is passed to `build`
(whose exceptions propagate). -/
def mkChain (corpusOrModel : Json) (stateSizeOpt : Option Json) :
    Except BuildErr Chain :=
  let ss := effStateSize stateSizeOpt
  match corpusOrModel with
  | Json.obj fs => Except.ok { stateSize := ss, model := Json.obj fs }
  | c => (Chain.build c (jsToIntDefault ss)).map
      (fun m => { stateSize := ss, model := m })

/-- `Chain.prototype.toJSON` (markov.ts lines 140-153): flatten the model to
`(stateKey, (followKey, record) list) pairs` and wrap with `stateSize`. -/
def Chain.toJSON (c : Chain) : Json :=
  Json.obj [("stateSize", c.stateSize),
    ("model", Json.arr ((jsEnumEntries c.model).map (fun kv =>
      Json.arr [Json.str kv.1,
        Json.arr ((jsEnumEntries kv.2).map (fun fv =>
          Json.arr [Json.str fv.1, fv.2]))])))]

/-- `JSON.stringify(chain)`, which consults `Chain.prototype.toJSON`. -/
def serializeChain (c : Chain) : String := stringifyJson (Chain.toJSON c)

/-- Value of a hexadecimal digit character, if any. -/
def hexVal (c : Char) : Option Nat :=
  if 48 ≤ c.toNat ∧ c.toNat ≤ 57 then some (c.toNat - 48)
  else if 97 ≤ c.toNat ∧ c.toNat ≤ 102 then some (c.toNat - 87)
  else if 65 ≤ c.toNat ∧ c.toNat ≤ 70 then some (c.toNat - 55)
  else none

/-- Decimal digit test. -/
def isDigitCh (c : Char) : Bool := 48 ≤ c.toNat && c.toNat ≤ 57

/-- Body of a JSON string literal (opening quote already consumed):
accumulates unescaped characters until the closing quote. -/
def parseStrAux : List Char → List Char → Option (String × List Char)
  | [], _ => none
  | c :: rest, acc =>
    if c = '"' then some (String.mk acc.reverse, rest)
    else if c = '\\' then
      match rest with
      | [] => none
      | e :: r =>
        if e = '"' then parseStrAux r ('"' :: acc)
        else if e = '\\' then parseStrAux r ('\\' :: acc)
        else if e = '/' then parseStrAux r ('/' :: acc)
        else if e = 'b' then parseStrAux r (Char.ofNat 8 :: acc)
        else if e = 'f' then parseStrAux r (Char.ofNat 12 :: acc)
        else if e = 'n' then parseStrAux r (Char.ofNat 10 :: acc)
        else if e = 'r' then parseStrAux r (Char.ofNat 13 :: acc)
        else if e = 't' then parseStrAux r (Char.ofNat 9 :: acc)
        else if e = 'u' then
          match r with
          | h1 :: h2 :: h3 :: h4 :: r2 =>
            match hexVal h1, hexVal h2, hexVal h3, hexVal h4 with
            | some a, some b, some d1, some d2 =>
              parseStrAux r2 (Char.ofNat (((a * 16 + b) * 16 + d1) * 16 + d2) :: acc)
            | _, _, _, _ => none
          | _ => none
        else none
    else parseStrAux rest (c :: acc)

/-- Digits of a decimal numeral, folded most significant first. -/
def parseDigits : List Char → Nat → Nat × List Char
  | c :: rest, acc =>
    if isDigitCh c then parseDigits rest (acc * 10 + (c.toNat - 48))
    else (acc, c :: rest)
  | [], acc => (acc, [])

/-- A decimal natural numeral (at least one digit). -/
def parseNatNum : List Char → Option (Nat × List Char)
  | c :: rest =>
    if isDigitCh c then some (parseDigits rest (c.toNat - 48))
    else none
  | [] => none

mutual

/-- Recursive-descent parser for the JSON fragment produced by the library:
`null`, booleans, integer numerals, strings, arrays and objects.
(`JSON.parse` additionally accepts fractional/exponent numerals and
inter-token whitespace; no claim depends on them.)  `fuel` dominates the
nesting/element structure; `parseJson` supplies a sufficient amount. -/
def parseJ : Nat → List Char → Option (Json × List Char)
  | 0, _ => none
  | fuel + 1, cs =>
    match cs with
    | [] => none
    | c :: rest =>
      if c = 'n' then
        match rest with
        | c1 :: c2 :: c3 :: r =>
          if c1 = 'u' ∧ c2 = 'l' ∧ c3 = 'l' then some (Json.null, r) else none
        | _ => none
      else if c = 't' then
        match rest with
        | c1 :: c2 :: c3 :: r =>
          if c1 = 'r' ∧ c2 = 'u' ∧ c3 = 'e' then some (Json.bool true, r) else none
        | _ => none
      else if c = 'f' then
        match rest with
        | c1 :: c2 :: c3 :: c4 :: r =>
          if c1 = 'a' ∧ c2 = 'l' ∧ c3 = 's' ∧ c4 = 'e' then
            some (Json.bool false, r)
          else none
        | _ => none
      else if c = '"' then
        (parseStrAux rest []).map (fun p => (Json.str p.1, p.2))
      else if c = '-' then
        (parseNatNum rest).map (fun p => (Json.num (-(p.1 : Int)), p.2))
      else if c = '[' then
        if rest.head? = some ']' then some (Json.arr [], rest.tail)
        else parseElems fuel rest []
      else if c = '{' then
        if rest.head? = some '}' then some (Json.obj [], rest.tail)
        else parseFields fuel rest []
      else if isDigitCh c then
        (parseNatNum (c :: rest)).map (fun p => (Json.num (p.1 : Int), p.2))
      else none

/-- Array elements: value, then `,` to continue or `]` to finish. -/
def parseElems : Nat → List Char → List Json → Option (Json × List Char)
  | 0, _, _ => none
  | fuel + 1, cs, acc =>
    match parseJ fuel cs with
    | none => none
    | some (v, r) =>
      match r with
      | ',' :: r2 => parseElems fuel r2 (acc ++ [v])
      | ']' :: r2 => some (Json.arr (acc ++ [v]), r2)
      | _ => none

/-- Object fields: string key, `:`, value, then `,` or `}`.  Duplicate keys
overwrite in place (`JSON.parse` keeps the last value at the first
position), via `objSet`. -/
def parseFields : Nat → List Char → List (String × Json) →
    Option (Json × List Char)
  | 0, _, _ => none
  | fuel + 1, cs, acc =>
    match cs with
    | '"' :: cs2 =>
      match parseStrAux cs2 [] with
      | none => none
      | some (k, r) =>
        match r with
        | ':' :: r2 =>
          match parseJ fuel r2 with
          | none => none
          | some (v, r3) =>
            match r3 with
            | ',' :: r4 => parseFields fuel r4 (objSet acc k v)
            | '}' :: r4 => some (Json.obj (objSet acc k v), r4)
            | _ => none
        | _ => none
    | _ => none

end

/-- `JSON.parse(text)`: parse the whole text, `none` on failure. -/
def parseJson (s : String) : Option Json :=
  match parseJ (s.data.length + 1) s.data with
  | some (v, []) => some v
  | _ => none

/-- The inner loop of `Chain.fromJSON` (markov.ts lines 118-121): reads
`follow[j] = [followKey, followData]` for `j` in the remaining range and
populates `followMap[followKey] = Object.assign(\x7b\x7d, followData)`. -/
def readPairs (follow : Json) : Nat → Nat → List (String × Json) →
    Option (List (String × Json))
  | _, 0, acc => some acc
  | j, m + 1, acc =>
    match jsDestr2 (jsIndex follow j) with
    | none => none
    | some (fkV, fdV) =>
      readPairs follow (j + 1) m (objSet acc (jsKeyOf fkV) (jsAssignCopy fdV))

/-- The outer loop of `Chain.fromJSON` (markov.ts lines 115-123): reads
`parsedData.model[i] = [stateKey, follow]`, builds the follow map, and
pushes `[stateKey, followMap]`. -/
def readStates (modelV : Json) : Nat → Nat → List (Option Json × Json) →
    Option (List (Option Json × Json))
  | _, 0, acc => some acc
  | i, n + 1, acc =>
    match jsDestr2 (jsIndex modelV i) with
    | none => none
    | some (skV, followV) =>
      match jsLength followV with
      | none => none
      | some flenV =>
        match readPairs (followV.getD Json.null) 0 (jsLoopBound flenV) [] with
        | none => none
        | some fm =>
          readStates modelV (i + 1) n (acc ++ [(skV, Json.obj fm)])

/-- `Chain.fromJSON(jsonData)` (markov.ts lines 108-133): parse, read
`stateSize` and the flattened model, reduce the pairs into an object and
construct the chain; `none` models any thrown exception. -/
def Chain.fromJSON (jsonData : String) : Option Chain :=
  match parseJson jsonData with
  | none => none
  | some parsed =>
    match jsGetField parsed "stateSize" with
    | none => none
    | some stateSizeV =>
      match jsGetField parsed "model" with
      | none => none
      | some modelV =>
        match jsLength modelV with
        | none => none
        | some lenV =>
          match readStates (modelV.getD Json.null) 0 (jsLoopBound lenV) [] with
          | none => none
          | some states =>
            let modelObj := Json.obj (states.foldl
              (fun acc kv => objSet acc (jsKeyOf kv.1) kv.2) [])
            match mkChain modelObj stateSizeV with
            | Except.ok c => some c
            | Except.error _ => none

/-- Cumulative sums `cumulativeDistribution` of `Chain.move`
(markov.ts lines 177-183). -/
def cumSums (acc : ℚ) : List ℚ → List ℚ
  | [] => []
  | w :: ws => (acc + w) :: cumSums (acc + w) ws

/-- The selection loop of `Chain.move` (markov.ts lines 187-193): the number
of leading cumulative sums `≤ r` (`randomIndex`). -/
def countWhileGe (r : ℚ) : List ℚ → Nat
  | [] => 0
  | c :: cs => if r ≥ c then countWhileGe r cs + 1 else 0

/-- The `value` property of a stored follow record (`state[key].value`);
`none` models `undefined`. -/
def recValue : Json → Option Json
  | Json.obj rs => objGet rs "value"
  | _ => none

/-- The `count` property of a stored follow record as a number.  `build`
and the claims only store numeric counts; for other stored values JS
arithmetic would produce NaN or string concatenation, which is not
modelled (such chains fall outside every claim). -/
def recCount : Json → ℚ
  | Json.obj rs =>
    match objGet rs "count" with
    | some (Json.num c) => (c : ℚ)
    | _ => 0
  | _ => 0

/-- `Chain.prototype.move(fromState)` (markov.ts lines 161-196) with the
`Math.random()` draw made explicit as `u` (the code computes
`r = u * cumSum`).  Returns `none` both for the no-transition sentinel and
for an `undefined` selected value, exactly as the JS function returns
`undefined` in both cases.  A `null` model (which no constructed chain has)
would throw in JS and is conflated with the sentinel here. -/
def Chain.move (c : Chain) (fromState : Json) (u : ℚ) : Option Json :=
  let stateKey := createStateKey fromState
  let state : Option Json :=
    match c.model with
    | Json.obj fs => objGet (objDedup fs) stateKey
    | _ => none
  match state with
  | none => none
  | some st =>
    if jsFalsy st then none
    else
      let entries := jsEnumEntries st
      let choices := entries.map (fun kv => recValue kv.2)
      let weights := entries.map (fun kv => recCount kv.2)
      let cums := cumSums 0 weights
      let total := (cums.getLast?).getD 0
      let r := u * total
      let randomIndex := countWhileGe r cums
      (choices[randomIndex]?).bind id

/-- The loop of `Chain.prototype.walk` (markov.ts lines 208-215).  The JS
loop mutates the state array in place (`state.shift(); state.push(step)`);
since `state` aliases a supplied `fromState`, the caller's array afterwards
holds the final state, which is therefore returned alongside the steps.
`fuel` bounds the number of iterations unwound (the JS loop is unbounded);
`us i` is the `Math.random()` draw of iteration `i`. -/
def Chain.walkAux (c : Chain) (us : Nat → ℚ) :
    Nat → Nat → List Json → List Json × List Json
  | 0, _, state => ([], state)
  | fuel + 1, i, state =>
    match Chain.move c (Json.arr state) (us i) with
    | none => ([], state)
    | some step =>
      if step = Json.str END then ([], state)
      else
        let next := Chain.walkAux c us fuel (i + 1) (state.tail ++ [step])
        (step :: next.1, next.2)

/-- `Chain.prototype.walk(fromState?)` (markov.ts lines 203-218): the state
starts from the supplied array (always truthy in JS) or from
`createBeginState(this.stateSize)`.  Returns `(steps, finalState)` where
`finalState` is the content of the (mutated) state array when the loop
stops. -/
def Chain.walk (c : Chain) (fromState : Option (List Json)) (us : Nat → ℚ)
    (fuel : Nat) : List Json × List Json :=
  let state0 :=
    match fromState with
    | some s => s
    | none => createBeginState (jsToIntDefault c.stateSize)
  Chain.walkAux c us fuel 0 state0

/-! ### Association-list (JS object) lemmas -/

theorem objGet_objSet_self (m : List (String × Json)) (k : String) (v : Json) :
    objGet (objSet m k v) k = some v := by
  induction m with
  | nil => simp [objSet, objGet]
  | cons kv rest ih =>
    obtain ⟨k', v'⟩ := kv
    by_cases h : k' = k
    · simp [objSet, objGet, h]
    · simp [objSet, objGet, h, ih]

theorem objGet_objSet_ne (m : List (String × Json)) {k k' : String} (v : Json)
    (h : k' ≠ k) : objGet (objSet m k v) k' = objGet m k' := by
  have h' : ¬(k = k') := fun hh => h hh.symm
  induction m with
  | nil => simp [objSet, objGet, h']
  | cons kv rest ih =>
    obtain ⟨k0, v0⟩ := kv
    by_cases h0 : k0 = k
    · subst h0
      simp [objSet, objGet, h']
    · simp [objSet, objGet, h0, ih]

theorem objSet_of_objGet_none {m : List (String × Json)} {k : String}
    (v : Json) (h : objGet m k = none) : objSet m k v = m ++ [(k, v)] := by
  induction m with
  | nil => simp [objSet]
  | cons kv rest ih =>
    obtain ⟨k0, v0⟩ := kv
    by_cases h0 : k0 = k
    · simp [objGet, h0] at h
    · simp [objGet, h0] at h
      simp [objSet, h0, ih h]

theorem objGet_append_of_none {a b : List (String × Json)} {k : String}
    (h : objGet a k = none) : objGet (a ++ b) k = objGet b k := by
  induction a with
  | nil => simp
  | cons kv rest ih =>
    obtain ⟨k0, v0⟩ := kv
    by_cases h0 : k0 = k
    · simp [objGet, h0] at h
    · simp [objGet, h0] at h ⊢
      exact ih h

theorem objGet_eq_none_of_not_mem {m : List (String × Json)} {k : String}
    (h : k ∉ m.map Prod.fst) : objGet m k = none := by
  induction m with
  | nil => rfl
  | cons kv rest ih =>
    obtain ⟨k0, v0⟩ := kv
    simp only [List.map_cons, List.mem_cons, not_or] at h
    have h0 : ¬(k0 = k) := fun hh => h.1 hh.symm
    simp [objGet, h0, ih h.2]

theorem keysUnique_cons {k : String} {ks : List String}
    (h : keysUnique (k :: ks) = true) : k ∉ ks ∧ keysUnique ks = true := by
  simp only [keysUnique, Bool.and_eq_true, Bool.not_eq_true'] at h
  refine ⟨?_, h.2⟩
  intro hmem
  have := (List.elem_iff).mpr hmem
  simp [List.contains] at h
  exact absurd hmem h.1

theorem foldl_objSet_append (fs : List (String × Json)) :
    ∀ acc : List (String × Json),
    keysUnique (fs.map Prod.fst) = true →
    (∀ kv ∈ fs, objGet acc kv.1 = none) →
    fs.foldl (fun a kv => objSet a kv.1 kv.2) acc = acc ++ fs := by
  induction fs with
  | nil => intro acc _ _; simp
  | cons kv rest ih =>
    intro acc hu hd
    obtain ⟨k, v⟩ := kv
    obtain ⟨hk, hu'⟩ := keysUnique_cons (by simpa using hu)
    have hset : objSet acc k v = acc ++ [(k, v)] :=
      objSet_of_objGet_none v (hd (k, v) (by simp))
    have hd' : ∀ kv' ∈ rest, objGet (acc ++ [(k, v)]) kv'.1 = none := by
      intro kv' hmem
      have hne : kv'.1 ≠ k := by
        intro hh
        exact hk (by simpa [hh] using List.mem_map_of_mem Prod.fst hmem)
      have hne' : ¬(k = kv'.1) := fun hh => hne hh.symm
      rw [objGet_append_of_none (hd kv' (List.mem_cons_of_mem _ hmem))]
      simp [objGet, hne']
    calc (((k, v) :: rest).foldl (fun a kv => objSet a kv.1 kv.2) acc)
        = rest.foldl (fun a kv => objSet a kv.1 kv.2) (acc ++ [(k, v)]) := by
          simp [hset]
      _ = (acc ++ [(k, v)]) ++ rest := ih _ hu' hd'
      _ = acc ++ (k, v) :: rest := by simp

theorem objDedup_of_unique {fs : List (String × Json)}
    (h : keysUnique (fs.map Prod.fst) = true) : objDedup fs = fs := by
  have := foldl_objSet_append fs [] h (by intro kv _; rfl)
  simpa [objDedup] using this

/-! ### Encoder/parser round-trip -/

theorem char_toNat_ofNat {n : Nat} (h : n < 55296) : (Char.ofNat n).toNat = n := by
  have hv : n.isValidChar := Or.inl (by omega)
  simp [Char.ofNat, Char.toNat, Char.ofNatAux, hv]
  rfl

theorem hexVal_hexDigit : ∀ n < 16, hexVal (hexDigit n) = some n := by decide

theorem parseStrAux_escapeList :
    ∀ (cs acc rest : List Char),
    parseStrAux (escapeList cs ++ '"' :: rest) acc =
      some (String.mk (acc.reverse ++ cs), rest) := by
  intro cs
  induction cs with
  | nil =>
    intro acc rest
    show parseStrAux ('"' :: rest) acc = _
    rw [parseStrAux.eq_def]
    simp
  | cons c cs ih =>
    intro acc rest
    have hacc : ∀ x : Char, (x :: acc).reverse ++ cs = acc.reverse ++ x :: cs := by
      intro x; simp
    by_cases h1 : c = '"'
    · subst h1
      rw [show escapeList ('"' :: cs) ++ '"' :: rest =
          '\\' :: '"' :: (escapeList cs ++ '"' :: rest) from rfl]
      rw [parseStrAux.eq_def]
      simp only [Char.reduceEq, reduceIte]
      rw [ih, hacc]
    · by_cases h2 : c = '\\'
      · subst h2
        rw [show escapeList ('\\' :: cs) ++ '"' :: rest =
            '\\' :: '\\' :: (escapeList cs ++ '"' :: rest) from rfl]
        rw [parseStrAux.eq_def]
        simp only [Char.reduceEq, reduceIte]
        rw [ih, hacc]
      · by_cases h3 : c = Char.ofNat 8
        · subst h3
          rw [show escapeList (Char.ofNat 8 :: cs) ++ '"' :: rest =
              '\\' :: 'b' :: (escapeList cs ++ '"' :: rest) from rfl]
          rw [parseStrAux.eq_def]
          simp only [Char.reduceEq, reduceIte]
          rw [ih, hacc]
        · by_cases h4 : c = Char.ofNat 9
          · subst h4
            rw [show escapeList (Char.ofNat 9 :: cs) ++ '"' :: rest =
                '\\' :: 't' :: (escapeList cs ++ '"' :: rest) from rfl]
            rw [parseStrAux.eq_def]
            simp only [Char.reduceEq, reduceIte]
            rw [ih, hacc]
          · by_cases h5 : c = Char.ofNat 10
            · subst h5
              rw [show escapeList (Char.ofNat 10 :: cs) ++ '"' :: rest =
                  '\\' :: 'n' :: (escapeList cs ++ '"' :: rest) from rfl]
              rw [parseStrAux.eq_def]
              simp only [Char.reduceEq, reduceIte]
              rw [ih, hacc]
            · by_cases h6 : c = Char.ofNat 12
              · subst h6
                rw [show escapeList (Char.ofNat 12 :: cs) ++ '"' :: rest =
                    '\\' :: 'f' :: (escapeList cs ++ '"' :: rest) from rfl]
                rw [parseStrAux.eq_def]
                simp only [Char.reduceEq, reduceIte]
                rw [ih, hacc]
              · by_cases h7 : c = Char.ofNat 13
                · subst h7
                  rw [show escapeList (Char.ofNat 13 :: cs) ++ '"' :: rest =
                      '\\' :: 'r' :: (escapeList cs ++ '"' :: rest) from rfl]
                  rw [parseStrAux.eq_def]
                  simp only [Char.reduceEq, reduceIte]
                  rw [ih, hacc]
                · by_cases h8 : c.toNat < 32
                  · have hdiv : c.toNat / 16 < 16 := by omega
                    have hmod : c.toNat % 16 < 16 := by omega
                    have hl : escapeList (c :: cs) ++ '"' :: rest =
                        '\\' :: 'u' :: '0' :: '0' :: hexDigit (c.toNat / 16) ::
                          hexDigit (c.toNat % 16) :: (escapeList cs ++ '"' :: rest) := by
                      simp [escapeList, escapeChar, h1, h2, h3, h4, h5, h6, h7, h8]
                    rw [hl, parseStrAux.eq_def]
                    have e1 : hexVal '0' = some 0 := by decide
                    simp only [Char.reduceEq, reduceIte, e1, hexVal_hexDigit _ hdiv,
                      hexVal_hexDigit _ hmod]
                    have harith :
                        ((0 * 16 + 0) * 16 + c.toNat / 16) * 16 + c.toNat % 16 =
                          c.toNat := by omega
                    rw [harith, Char.ofNat_toNat, ih, hacc]
                  · have hl : escapeList (c :: cs) ++ '"' :: rest =
                        c :: (escapeList cs ++ '"' :: rest) := by
                      simp [escapeList, escapeChar, h1, h2, h3, h4, h5, h6, h7, h8]
                    rw [hl, parseStrAux.eq_def]
                    simp only [h1, h2, Char.reduceEq, reduceIte, if_false]
                    rw [ih, hacc]

theorem isDigitCh_ofNat_add {m : Nat} (h : m < 10) :
    isDigitCh (Char.ofNat (48 + m)) = true := by
  have ht : (Char.ofNat (48 + m)).toNat = 48 + m := char_toNat_ofNat (by omega)
  simp [isDigitCh, ht]
  omega

theorem natCharsRev_ne_nil (n : Nat) : natCharsRev n ≠ [] := by
  rw [natCharsRev]
  by_cases h : n < 10 <;> simp [h]

theorem natCharsRev_digits (n : Nat) : ∀ c ∈ natCharsRev n, isDigitCh c = true := by
  induction n using Nat.strong_induction_on with
  | _ n ih =>
    rw [natCharsRev]
    by_cases h : n < 10
    · simp only [h, dite_true, List.mem_singleton]
      intro c hc
      subst hc
      exact isDigitCh_ofNat_add h
    · simp only [h, dite_false, List.mem_cons]
      intro c hc
      rcases hc with hc | hc
      · subst hc
        exact isDigitCh_ofNat_add (Nat.mod_lt _ (by omega))
      · exact ih (n / 10) (Nat.div_lt_self (by omega) (by omega)) c hc

theorem natChars_digits (n : Nat) : ∀ c ∈ natChars n, isDigitCh c = true := by
  intro c hc
  exact natCharsRev_digits n c (by simpa [natChars] using hc)

theorem natChars_ne_nil (n : Nat) : natChars n ≠ [] := by
  simp [natChars, natCharsRev_ne_nil n]

theorem parseDigits_spec :
    ∀ (ds rest : List Char) (acc : Nat),
    (∀ c ∈ ds, isDigitCh c = true) →
    (∀ c, rest.head? = some c → isDigitCh c = false) →
    parseDigits (ds ++ rest) acc =
      (ds.foldl (fun a c => a * 10 + (c.toNat - 48)) acc, rest) := by
  intro ds
  induction ds with
  | nil =>
    intro rest acc _ hrest
    cases rest with
    | nil => simp [parseDigits]
    | cons c r =>
      simp only [List.nil_append, List.foldl_nil]
      rw [parseDigits]
      simp [hrest c rfl]
  | cons c ds ih =>
    intro rest acc hds hrest
    simp only [List.cons_append, List.foldl_cons]
    rw [parseDigits]
    simp only [hds c (by simp), if_true]
    exact ih rest _ (fun x hx => hds x (by simp [hx])) hrest

theorem foldl_digits_natChars (n : Nat) :
    ∀ acc : Nat,
    (natChars n).foldl (fun a c => a * 10 + (c.toNat - 48)) acc =
      acc * 10 ^ (natChars n).length + n := by
  induction n using Nat.strong_induction_on with
  | _ n ih =>
    intro acc
    by_cases h : n < 10
    · have hn : natChars n = [Char.ofNat (48 + n)] := by
        simp [natChars, natCharsRev, h]
      rw [hn]
      simp [char_toNat_ofNat (show 48 + n < 55296 by omega)]
    · have hn : natChars n = natChars (n / 10) ++ [Char.ofNat (48 + n % 10)] := by
        simp only [natChars]
        rw [natCharsRev]
        simp [h]
      rw [hn, List.foldl_append]
      rw [ih (n / 10) (Nat.div_lt_self (by omega) (by omega)) acc]
      have ht : (Char.ofNat (48 + n % 10)).toNat = 48 + n % 10 :=
        char_toNat_ofNat (by omega)
      simp only [List.foldl_cons, List.foldl_nil, List.length_append,
        List.length_singleton, ht]
      rw [pow_succ]
      have hdm : n / 10 * 10 + n % 10 = n := by omega
      ring_nf
      omega

theorem parseNatNum_natChars (n : Nat) (rest : List Char)
    (hrest : ∀ c, rest.head? = some c → isDigitCh c = false) :
    parseNatNum (natChars n ++ rest) = some (n, rest) := by
  cases hcn : natChars n with
  | nil => exact absurd hcn (natChars_ne_nil n)
  | cons c ds =>
    have hdigs : ∀ x ∈ c :: ds, isDigitCh x = true := by
      rw [← hcn]; exact natChars_digits n
    have hds : ∀ x ∈ ds, isDigitCh x = true := fun x hx => hdigs x (by simp [hx])
    have hc : isDigitCh c = true := hdigs c (by simp)
    simp only [List.cons_append]
    rw [parseNatNum]
    simp only [hc, if_true]
    rw [parseDigits_spec ds rest _ hds hrest]
    have hval : (natChars n).foldl (fun a x => a * 10 + (x.toNat - 48)) 0 = n := by
      rw [foldl_digits_natChars n 0]; omega
    rw [hcn] at hval
    simp only [List.foldl_cons] at hval
    simp only [Nat.zero_mul, Nat.zero_add] at hval
    rw [hval]

theorem digit_ne_marks {c : Char} (h : isDigitCh c = true) :
    c ≠ 'n' ∧ c ≠ 't' ∧ c ≠ 'f' ∧ c ≠ '"' ∧ c ≠ '-' ∧ c ≠ '[' ∧ c ≠ '{' ∧
      c ≠ ']' ∧ c ≠ '}' := by
  simp only [isDigitCh, Bool.and_eq_true, decide_eq_true_eq] at h
  refine ⟨?_, ?_, ?_, ?_, ?_, ?_, ?_, ?_, ?_⟩ <;>
    (intro he; subst he; revert h; decide)

theorem parseJ_num (fuel : Nat) (n : Int) (rest : List Char)
    (hrest : ∀ c, rest.head? = some c → isDigitCh c = false) :
    parseJ (fuel + 1) (intChars n ++ rest) = some (Json.num n, rest) := by
  cases n with
  | ofNat m =>
    cases hcn : natChars m with
    | nil => exact absurd hcn (natChars_ne_nil m)
    | cons c ds =>
      have hc : isDigitCh c = true := by
        have := natChars_digits m c (by simp [hcn])
        exact this
      obtain ⟨h1, h2, h3, h4, h5, h6, h7, _, _⟩ := digit_ne_marks hc
      have hl : intChars (Int.ofNat m) ++ rest = c :: (ds ++ rest) := by
        simp [intChars, hcn]
      rw [hl, parseJ.eq_def]
      simp only [h1, h2, h3, h4, h5, h6, h7, hc, if_true, if_false, reduceIte]
      have : (c :: ds) ++ rest = c :: (ds ++ rest) := by simp
      rw [← this, ← hcn, parseNatNum_natChars m rest hrest]
      rfl
  | negSucc m =>
    have hl : intChars (Int.negSucc m) ++ rest = '-' :: (natChars (m + 1) ++ rest) := by
      simp [intChars]
    rw [hl, parseJ.eq_def]
    simp only [Char.reduceEq, reduceIte]
    rw [parseNatNum_natChars (m + 1) rest hrest]
    simp [Int.negSucc_eq]

theorem jsize_pos : ∀ v : Json, 1 ≤ jsize v := by
  intro v
  cases v <;> simp [jsize]

theorem jsizeList_pos {xs : List Json} (h : xs ≠ []) : 1 ≤ jsizeList xs := by
  cases xs with
  | nil => exact absurd rfl h
  | cons x xs => simp [jsizeList]; omega

theorem jsizeFields_pos {fs : List (String × Json)} (h : fs ≠ []) :
    1 ≤ jsizeFields fs := by
  cases fs with
  | nil => exact absurd rfl h
  | cons kv fs => cases kv; simp [jsizeFields]; omega

/-- Every encoding is nonempty and starts with a character other than `]`,
`\x7d` or a decimal digit-terminator conflict source; precisely: its head is
one of the value-start characters. -/
theorem encodeJ_head (v : Json) :
    ∃ c cs, encodeJ v = c :: cs ∧ c ≠ ']' ∧ c ≠ '}' := by
  cases v with
  | null => exact ⟨'n', _, rfl, by decide, by decide⟩
  | bool b =>
    cases b with
    | true => exact ⟨'t', _, rfl, by decide, by decide⟩
    | false => exact ⟨'f', _, rfl, by decide, by decide⟩
  | num n =>
    cases n with
    | ofNat m =>
      cases hcn : natChars m with
      | nil => exact absurd hcn (natChars_ne_nil m)
      | cons c ds =>
        have hc : isDigitCh c = true := natChars_digits m c (by simp [hcn])
        obtain ⟨_, _, _, _, _, _, _, h8, h9⟩ := digit_ne_marks hc
        exact ⟨c, ds, by simp [encodeJ, intChars, hcn], h8, h9⟩
    | negSucc m =>
      exact ⟨'-', natChars (m + 1), by simp [encodeJ, intChars], by decide, by decide⟩
  | str s => exact ⟨'"', _, rfl, by decide, by decide⟩
  | arr xs => exact ⟨'[', _, rfl, by decide, by decide⟩
  | obj fs => exact ⟨'{', _, rfl, by decide, by decide⟩

/-- The remainder after an encoded value must not start with a digit (it
never does inside the JSON grammar: it is `,`, `]`, `\x7d` or empty). -/
def delimOk (rest : List Char) : Prop :=
  ∀ c, rest.head? = some c → isDigitCh c = false

theorem delimOk_nil : delimOk [] := by intro c h; simp at h

theorem delimOk_comma (r : List Char) : delimOk (',' :: r) := by
  intro c h
  simp only [List.head?_cons, Option.some.injEq] at h
  subst h; decide

theorem delimOk_rbracket (r : List Char) : delimOk (']' :: r) := by
  intro c h
  simp only [List.head?_cons, Option.some.injEq] at h
  subst h; decide

theorem delimOk_rbrace (r : List Char) : delimOk ('}' :: r) := by
  intro c h
  simp only [List.head?_cons, Option.some.injEq] at h
  subst h; decide

theorem keysUnique_middle :
    ∀ (a : List String) (k : String) (b : List String),
    keysUnique (a ++ k :: b) = true → k ∉ a := by
  intro a
  induction a with
  | nil => simp
  | cons x a ih =>
    intro k b h
    obtain ⟨hx, h'⟩ := keysUnique_cons (by simpa using h)
    simp only [List.mem_cons]
    rintro (rfl | hmem)
    · exact hx (by simp)
    · exact ih k b h' hmem

theorem encodeList_cons_shape (x : Json) (xs : List Json) :
    ∃ t, encodeList (x :: xs) = encodeJ x ++ t := by
  cases xs with
  | nil => exact ⟨[], by simp [encodeList]⟩
  | cons y ys => exact ⟨',' :: encodeList (y :: ys), by simp [encodeList]⟩

theorem encodeFields_cons_shape (k : String) (v : Json)
    (fs : List (String × Json)) :
    ∃ t, encodeFields ((k, v) :: fs) = '"' :: t := by
  cases fs with
  | nil => exact ⟨escapeList k.data ++ '"' :: ':' :: encodeJ v,
      by simp [encodeFields, encodeStrL]⟩
  | cons g gs =>
    exact ⟨escapeList k.data ++ '"' :: ':' :: (encodeJ v ++ ',' ::
      encodeFields (g :: gs)), by simp [encodeFields, encodeStrL]⟩

theorem parse_encode_mutual : ∀ fuel : Nat,
    (∀ v rest, wfJson v = true → jsize v ≤ fuel → delimOk rest →
      parseJ fuel (encodeJ v ++ rest) = some (v, rest)) ∧
    (∀ xs (acc : List Json) rest, wfJsonList xs = true → jsizeList xs ≤ fuel →
      xs ≠ [] →
      parseElems fuel (encodeList xs ++ ']' :: rest) acc =
        some (Json.arr (acc ++ xs), rest)) ∧
    (∀ fs (acc : List (String × Json)) rest, wfJsonFields fs = true →
      jsizeFields fs ≤ fuel → fs ≠ [] →
      keysUnique (acc.map Prod.fst ++ fs.map Prod.fst) = true →
      parseFields fuel (encodeFields fs ++ '}' :: rest) acc =
        some (Json.obj (acc ++ fs), rest)) := by
  intro fuel
  induction fuel with
  | zero =>
    refine ⟨?_, ?_, ?_⟩
    · intro v rest _ hsz _
      exact absurd hsz (by have := jsize_pos v; omega)
    · intro xs _ _ _ hsz hne
      exact absurd hsz (by have := jsizeList_pos hne; omega)
    · intro fs _ _ _ hsz hne _
      exact absurd hsz (by have := jsizeFields_pos hne; omega)
  | succ fuel ih =>
    obtain ⟨ihV, ihE, ihF⟩ := ih
    refine ⟨?_, ?_, ?_⟩
    · -- values
      intro v rest hwf hsz hrest
      cases v with
      | null =>
        rw [show encodeJ Json.null ++ rest = 'n' :: 'u' :: 'l' :: 'l' :: rest by
          simp [encodeJ]]
        rw [parseJ.eq_def]
        simp [Char.reduceEq, reduceIte]
      | bool b =>
        cases b with
        | true =>
          rw [show encodeJ (Json.bool true) ++ rest =
              't' :: 'r' :: 'u' :: 'e' :: rest by simp [encodeJ]]
          rw [parseJ.eq_def]
          simp [Char.reduceEq, reduceIte]
        | false =>
          rw [show encodeJ (Json.bool false) ++ rest =
              'f' :: 'a' :: 'l' :: 's' :: 'e' :: rest by simp [encodeJ]]
          rw [parseJ.eq_def]
          simp [Char.reduceEq, reduceIte]
      | num n =>
        rw [show encodeJ (Json.num n) ++ rest = intChars n ++ rest by
          simp [encodeJ]]
        exact parseJ_num fuel n rest hrest
      | str s =>
        rw [show encodeJ (Json.str s) ++ rest =
            '"' :: (escapeList s.data ++ '"' :: rest) by simp [encodeJ, encodeStrL]]
        rw [parseJ.eq_def]
        simp only [Char.reduceEq, reduceIte]
        rw [parseStrAux_escapeList s.data [] rest]
        rfl
      | arr xs =>
        cases xs with
        | nil =>
          rw [show encodeJ (Json.arr []) ++ rest = '[' :: ']' :: rest by
            simp [encodeJ, encodeList]]
          rw [parseJ.eq_def]
          simp [Char.reduceEq, reduceIte]
        | cons x xs =>
          rw [show encodeJ (Json.arr (x :: xs)) ++ rest =
              '[' :: (encodeList (x :: xs) ++ ']' :: rest) by simp [encodeJ]]
          rw [parseJ.eq_def]
          obtain ⟨t, ht⟩ := encodeList_cons_shape x xs
          obtain ⟨c0, cs0, he, hne1, hne2⟩ := encodeJ_head x
          have hhead : (encodeList (x :: xs) ++ ']' :: rest).head? = some c0 := by
            rw [ht, he]; simp
          have hcond : ((encodeList (x :: xs) ++ ']' :: rest).head? = some ']') =
              False := by
            simp [hhead, hne1]
          simp only [Char.reduceEq, reduceIte, hcond, if_false]
          have hwl : wfJsonList (x :: xs) = true := by
            simpa [wfJson] using hwf
          have hszl : jsizeList (x :: xs) ≤ fuel := by
            simp only [jsize] at hsz; omega
          have := ihE (x :: xs) [] rest hwl hszl (by simp)
          simpa using this
      | obj fs =>
        cases fs with
        | nil =>
          rw [show encodeJ (Json.obj []) ++ rest = '{' :: '}' :: rest by
            simp [encodeJ, encodeFields]]
          rw [parseJ.eq_def]
          simp [Char.reduceEq, reduceIte]
        | cons g gs =>
          obtain ⟨k, v⟩ := g
          rw [show encodeJ (Json.obj ((k, v) :: gs)) ++ rest =
              '{' :: (encodeFields ((k, v) :: gs) ++ '}' :: rest) by simp [encodeJ]]
          rw [parseJ.eq_def]
          obtain ⟨t, ht⟩ := encodeFields_cons_shape k v gs
          have hhead : (encodeFields ((k, v) :: gs) ++ '}' :: rest).head? =
              some '"' := by
            rw [ht]; simp
          have hcond : ((encodeFields ((k, v) :: gs) ++ '}' :: rest).head? =
              some '}') = False := by
            simp [hhead]
          simp only [Char.reduceEq, reduceIte, hcond, if_false]
          have hwfl : wfJsonFields ((k, v) :: gs) = true := by
            simp only [wfJson, Bool.and_eq_true] at hwf
            exact hwf.2
          have hku : keysUnique (([] : List (String × Json)).map Prod.fst ++
              ((k, v) :: gs).map Prod.fst) = true := by
            simp only [wfJson, Bool.and_eq_true] at hwf
            simpa using hwf.1
          have hszf : jsizeFields ((k, v) :: gs) ≤ fuel := by
            simp only [jsize] at hsz; omega
          have := ihF ((k, v) :: gs) [] rest hwfl hszf (by simp) hku
          simpa using this
    · -- array elements
      intro xs acc rest hwf hsz hne
      cases xs with
      | nil => exact absurd rfl hne
      | cons x xs =>
        have hwx : wfJson x = true ∧ wfJsonList xs = true := by
          simpa [wfJsonList, Bool.and_eq_true] using hwf
        cases xs with
        | nil =>
          rw [show encodeList [x] ++ ']' :: rest = encodeJ x ++ ']' :: rest by
            simp [encodeList]]
          rw [parseElems.eq_def]
          simp only [ihV x (']' :: rest) hwx.1
            (by simp only [jsizeList] at hsz; omega) (delimOk_rbracket rest),
            Char.reduceEq, reduceIte]
        | cons y ys =>
          rw [show encodeList (x :: y :: ys) ++ ']' :: rest =
              encodeJ x ++ ',' :: (encodeList (y :: ys) ++ ']' :: rest) by
            simp [encodeList]]
          rw [parseElems.eq_def]
          simp only [ihV x _ hwx.1 (by simp only [jsizeList] at hsz; omega)
            (delimOk_comma _), Char.reduceEq, reduceIte]
          have := ihE (y :: ys) (acc ++ [x]) rest hwx.2
            (by simp only [jsizeList] at hsz ⊢; omega) (by simp)
          simpa using this
    · -- object fields
      intro fs acc rest hwf hsz hne hku
      cases fs with
      | nil => exact absurd rfl hne
      | cons g gs =>
        obtain ⟨k, v⟩ := g
        have hwv : wfJson v = true ∧ wfJsonFields gs = true := by
          simpa [wfJsonFields, Bool.and_eq_true] using hwf
        have hknotin : k ∉ acc.map Prod.fst := by
          have := keysUnique_middle (acc.map Prod.fst) k (gs.map Prod.fst)
          exact this (by simpa using hku)
        have hset : objSet acc k v = acc ++ [(k, v)] :=
          objSet_of_objGet_none v (objGet_eq_none_of_not_mem hknotin)
        cases gs with
        | nil =>
          rw [show encodeFields [(k, v)] ++ '}' :: rest =
              '"' :: (escapeList k.data ++ '"' :: ':' :: (encodeJ v ++
                '}' :: rest)) by simp [encodeFields, encodeStrL]]
          rw [parseFields.eq_def]
          simp only [parseStrAux_escapeList k.data [], List.reverse_nil,
            List.nil_append, ihV v ('}' :: rest) hwv.1
              (by simp only [jsizeFields] at hsz; omega) (delimOk_rbrace rest),
            Char.reduceEq, reduceIte]
          simp [hset]
        | cons g2 gs2 =>
          rw [show encodeFields ((k, v) :: g2 :: gs2) ++ '}' :: rest =
              '"' :: (escapeList k.data ++ '"' :: ':' :: (encodeJ v ++
                ',' :: (encodeFields (g2 :: gs2) ++ '}' :: rest))) by
            simp [encodeFields, encodeStrL]]
          rw [parseFields.eq_def]
          simp only [parseStrAux_escapeList k.data [], List.reverse_nil,
            List.nil_append, ihV v _ hwv.1
              (by simp only [jsizeFields] at hsz; omega) (delimOk_comma _),
            Char.reduceEq, reduceIte]
          have hku2 : keysUnique ((acc ++ [(k, v)]).map Prod.fst ++
              (g2 :: gs2).map Prod.fst) = true := by
            simpa using hku
          have := ihF (g2 :: gs2) (acc ++ [(k, v)]) rest hwv.2
            (by simp only [jsizeFields] at hsz ⊢; omega) (by simp) hku2
          rw [hset]
          simpa using this

mutual

theorem jsize_le_encode : ∀ v : Json, jsize v ≤ (encodeJ v).length
  | Json.null => by simp [jsize, encodeJ]
  | Json.bool b => by cases b <;> simp [jsize, encodeJ]
  | Json.num n => by
    have hne : intChars n ≠ [] := by
      cases n with
      | ofNat m => simp [intChars, natChars_ne_nil m]
      | negSucc m => simp [intChars]
    simp [jsize, encodeJ]
    cases hcn : intChars n with
    | nil => exact absurd hcn hne
    | cons c cs => simp
  | Json.str s => by simp [jsize, encodeJ, encodeStrL]
  | Json.arr xs => by
    have := jsizeList_le_encode xs
    simp only [jsize, encodeJ, List.length_cons, List.length_append,
      List.length_singleton]
    omega
  | Json.obj fs => by
    have := jsizeFields_le_encode fs
    simp only [jsize, encodeJ, List.length_cons, List.length_append,
      List.length_singleton]
    omega

theorem jsizeList_le_encode : ∀ xs : List Json,
    jsizeList xs ≤ (encodeList xs).length + 1
  | [] => by simp [jsizeList, encodeList]
  | [x] => by
    have := jsize_le_encode x
    simp only [jsizeList, encodeList]
    omega
  | x :: y :: ys => by
    have h1 := jsize_le_encode x
    have h2 := jsizeList_le_encode (y :: ys)
    simp only [jsizeList] at h2
    simp only [jsizeList, encodeList, List.length_append, List.length_cons]
    omega

theorem jsizeFields_le_encode : ∀ fs : List (String × Json),
    jsizeFields fs ≤ (encodeFields fs).length + 1
  | [] => by simp [jsizeFields, encodeFields]
  | [(k, v)] => by
    have := jsize_le_encode v
    simp only [jsizeFields, encodeFields, List.length_append, List.length_cons]
    omega
  | (k, v) :: g :: gs => by
    have h1 := jsize_le_encode v
    have h2 := jsizeFields_le_encode (g :: gs)
    obtain ⟨k2, v2⟩ := g
    simp only [jsizeFields] at h2
    simp only [jsizeFields, encodeFields, List.length_append, List.length_cons]
    omega

end

theorem parseJson_stringify {v : Json} (h : wfJson v = true) :
    parseJson (stringifyJson v) = some v := by
  have hfuel : jsize v ≤ (encodeJ v).length + 1 := by
    have := jsize_le_encode v; omega
  have hm := (parse_encode_mutual ((encodeJ v).length + 1)).1 v [] h hfuel delimOk_nil
  simp only [List.append_nil] at hm
  show (match parseJ ((encodeJ v).length + 1) (encodeJ v) with
    | some (w, []) => some w
    | _ => none) = some v
  rw [hm]

theorem stringifyJson_inj {a b : Json} (ha : wfJson a = true)
    (hb : wfJson b = true) (h : stringifyJson a = stringifyJson b) : a = b := by
  have h1 := parseJson_stringify ha
  have h2 := parseJson_stringify hb
  rw [h, h2] at h1
  exact (Option.some_inj.mp h1).symm

/-! ### Claim theorems -/

/-- C7: `createStateKey` is deterministic (equal states give equal keys) and
collision-free on well-formed symbol sequences (distinct sequences give
distinct keys), and a single non-sequence symbol is normalised into a
one-element sequence, so `createStateKey x = createStateKey [x]` for every
non-array `x`.  (Well-formedness only excludes association lists with
duplicate object keys, which do not represent any actual JS value.) -/
theorem c7_createStateKey_properties :
    (∀ x y : Json, x = y → createStateKey x = createStateKey y) ∧
    (∀ xs ys : List Json, wfJsonList xs = true → wfJsonList ys = true →
      createStateKey (Json.arr xs) = createStateKey (Json.arr ys) → xs = ys) ∧
    (∀ x : Json, (∀ zs, x ≠ Json.arr zs) →
      createStateKey x = createStateKey (Json.arr [x])) := by
  refine ⟨?_, ?_, ?_⟩
  · intro x y h
    rw [h]
  · intro xs ys hxs hys h
    have hkey : ∀ zs : List Json, createStateKey (Json.arr zs) =
        stringifyJson (Json.arr zs) := by
      intro zs; rfl
    rw [hkey, hkey] at h
    have := stringifyJson_inj (a := Json.arr xs) (b := Json.arr ys)
      (by simpa [wfJson] using hxs) (by simpa [wfJson] using hys) h
    injection this
  · intro x hx
    cases x with
    | arr zs => exact absurd rfl (hx zs)
    | null => rfl
    | bool b => rfl
    | num n => rfl
    | str s => rfl
    | obj fs => rfl

/-- Witness for C7 at concrete inputs. -/
theorem c7_createStateKey_properties_witness :
    createStateKey (Json.str "a") = createStateKey (Json.arr [Json.str "a"]) :=
  c7_createStateKey_properties.2.2 (Json.str "a") (fun zs h => by cases h)

/-- C10: a falsy `stateSize` option (`0`) is silently replaced by the
default: for every corpus-or-model argument, `new Chain(x, (stateSize: 0))`
equals `new Chain(x)` and its state size is `1`. -/
theorem c10_falsy_stateSize_default :
    ∀ x : Json, mkChain x (some (Json.num 0)) = mkChain x none ∧
      (∀ c, mkChain x none = Except.ok c → c.stateSize = Json.num 1) := by
  intro x
  have heff : effStateSize (some (Json.num 0)) = Json.num 1 := by
    simp [effStateSize, jsFalsy, DEFAULT_STATE_SIZE]
  have heff2 : effStateSize none = Json.num 1 := rfl
  constructor
  · simp only [mkChain, heff, heff2]
  · intro c h
    simp only [mkChain, heff2] at h
    cases x with
    | obj fs =>
      simp only [Except.ok.injEq] at h
      rw [← h]
    | null =>
      cases hb : Chain.build Json.null (jsToIntDefault (Json.num 1)) with
      | ok m =>
        simp only [hb, Except.map, Except.ok.injEq] at h
        rw [← h]
      | error e => simp [hb, Except.map] at h
    | bool b =>
      cases hb : Chain.build (Json.bool b) (jsToIntDefault (Json.num 1)) with
      | ok m =>
        simp only [hb, Except.map, Except.ok.injEq] at h
        rw [← h]
      | error e => simp [hb, Except.map] at h
    | num n =>
      cases hb : Chain.build (Json.num n) (jsToIntDefault (Json.num 1)) with
      | ok m =>
        simp only [hb, Except.map, Except.ok.injEq] at h
        rw [← h]
      | error e => simp [hb, Except.map] at h
    | str s =>
      cases hb : Chain.build (Json.str s) (jsToIntDefault (Json.num 1)) with
      | ok m =>
        simp only [hb, Except.map, Except.ok.injEq] at h
        rw [← h]
      | error e => simp [hb, Except.map] at h
    | arr xs =>
      cases hb : Chain.build (Json.arr xs) (jsToIntDefault (Json.num 1)) with
      | ok m =>
        simp only [hb, Except.map, Except.ok.injEq] at h
        rw [← h]
      | error e => simp [hb, Except.map] at h

/-- Witness for C10 at a concrete corpus. -/
theorem c10_falsy_stateSize_default_witness :
    mkChain (Json.arr [Json.arr [Json.str "a"]]) (some (Json.num 0)) =
      mkChain (Json.arr [Json.arr [Json.str "a"]]) none :=
  (c10_falsy_stateSize_default (Json.arr [Json.arr [Json.str "a"]])).1

theorem buildRuns_error_characterisation :
    ∀ (runs : List Json) (ss : Int) (m : List (String × Json)),
    (∀ e, buildRuns ss runs m = Except.error e →
      e = BuildErr.invalidRun ∧ ∃ r ∈ runs, ∀ rr, r ≠ Json.arr rr) ∧
    ((∃ r ∈ runs, ∀ rr, r ≠ Json.arr rr) →
      buildRuns ss runs m = Except.error BuildErr.invalidRun) := by
  intro runs
  induction runs with
  | nil =>
    intro ss m
    constructor
    · intro e he
      simp [buildRuns] at he
    · rintro ⟨r, hmem, _⟩
      simp at hmem
  | cons r rs ih =>
    intro ss m
    constructor
    · intro e he
      cases hr : r with
      | arr run =>
        rw [hr] at he
        rw [buildRuns] at he
        obtain ⟨he1, rr, hmem, hrr⟩ := (ih ss (processRun ss m run)).1 e he
        exact ⟨he1, rr, List.mem_cons_of_mem _ hmem, hrr⟩
      | null =>
        subst hr
        rw [buildRuns] at he
        injection he with h
        refine ⟨h.symm, Json.null, by simp, ?_⟩
        intro rr hc
        exact Json.noConfusion hc
      | bool b =>
        subst hr
        rw [buildRuns] at he
        injection he with h
        refine ⟨h.symm, Json.bool b, by simp, ?_⟩
        intro rr hc
        exact Json.noConfusion hc
      | num n =>
        subst hr
        rw [buildRuns] at he
        injection he with h
        refine ⟨h.symm, Json.num n, by simp, ?_⟩
        intro rr hc
        exact Json.noConfusion hc
      | str st =>
        subst hr
        rw [buildRuns] at he
        injection he with h
        refine ⟨h.symm, Json.str st, by simp, ?_⟩
        intro rr hc
        exact Json.noConfusion hc
      | obj fs =>
        subst hr
        rw [buildRuns] at he
        injection he with h
        refine ⟨h.symm, Json.obj fs, by simp, ?_⟩
        intro rr hc
        exact Json.noConfusion hc
    · rintro ⟨x, hmem, hx⟩
      rcases List.mem_cons.mp hmem with rfl | hmem2
      · cases hr : x with
        | arr run => exact absurd hr (hx run)
        | null => subst hr; rw [buildRuns]
        | bool b => subst hr; rw [buildRuns]
        | num n => subst hr; rw [buildRuns]
        | str st => subst hr; rw [buildRuns]
        | obj fs => subst hr; rw [buildRuns]
      · cases hr : r with
        | arr run =>
          subst hr
          rw [buildRuns]
          exact (ih ss (processRun ss m run)).2 ⟨x, hmem2, hx⟩
        | null => subst hr; rw [buildRuns]
        | bool b => subst hr; rw [buildRuns]
        | num n => subst hr; rw [buildRuns]
        | str st => subst hr; rw [buildRuns]
        | obj fs => subst hr; rw [buildRuns]

/-- C6: `build` fails with `InvalidCorpus` exactly when the corpus is not an
array, and (for an array corpus) fails with `InvalidRun` exactly when some
element is not an array; symbol contents are never validated, and a failure
yields an error value, never a partial table. -/
theorem c6_build_error_conditions :
    ∀ (corpus : Json) (ss : Int), 1 ≤ ss →
    ((Chain.build corpus ss = Except.error BuildErr.invalidCorpus) ↔
      (∀ runs, corpus ≠ Json.arr runs)) ∧
    (∀ runs, corpus = Json.arr runs →
      ((Chain.build corpus ss = Except.error BuildErr.invalidRun) ↔
        (∃ r ∈ runs, ∀ rr, r ≠ Json.arr rr))) := by
  intro corpus ss _
  constructor
  · constructor
    · intro h
      intro runs hc
      subst hc
      simp only [Chain.build] at h
      cases hb : buildRuns ss runs [] with
      | ok m => rw [hb] at h; simp [Except.map] at h
      | error e =>
        rw [hb] at h
        simp only [Except.map, Except.error.injEq] at h
        have := (buildRuns_error_characterisation runs ss []).1 e hb
        rw [h] at this
        cases this.1
    · intro h
      cases corpus with
      | arr runs => exact absurd rfl (h runs)
      | null => rfl
      | bool b => rfl
      | num n => rfl
      | str s => rfl
      | obj fs => rfl
  · intro runs hc
    subst hc
    constructor
    · intro h
      simp only [Chain.build] at h
      cases hb : buildRuns ss runs [] with
      | ok m => rw [hb] at h; simp [Except.map] at h
      | error e =>
        exact ((buildRuns_error_characterisation runs ss []).1 e hb).2
    · intro hex
      simp only [Chain.build]
      rw [(buildRuns_error_characterisation runs ss []).2 hex]
      rfl

/-- Witness for C6: a scalar corpus is rejected as `InvalidCorpus`. -/
theorem c6_build_error_conditions_witness :
    Chain.build (Json.num 5) 1 = Except.error BuildErr.invalidCorpus :=
  ((c6_build_error_conditions (Json.num 5) 1 (by decide)).1).mpr
    (fun runs h => by cases h)

/-! ### Transition counting (C1) -/

/-- The count stored in a model for `(stateKey, followKey)` (0 when the
state or follow entry is absent). -/
def modelCount (m : List (String × Json)) (k fk : String) : Int :=
  match objGet m k with
  | some (Json.obj fs) =>
    match objGet fs fk with
    | some r => recCountInt r
    | none => 0
  | _ => 0

/-- The count read for a follow key from a field list. -/
def followCountIn (cur : List (String × Json)) (fk : String) : Int :=
  match objGet cur fk with
  | some r => recCountInt r
  | none => 0

theorem recCountInt_recOrInit (cur : List (String × Json)) (fk : String)
    (f : Option Json) :
    recCountInt (recOrInit cur fk f) = followCountIn cur fk := by
  unfold recOrInit followCountIn
  cases h : objGet cur fk with
  | none => simp [initRec, recCountInt, objGet]
  | some r =>
    by_cases hf : jsFalsy r = true
    · have hr : recCountInt r = 0 := by
        cases r <;> simp_all [jsFalsy, recCountInt]
      have hi : recCountInt (initRec f) = 0 := by
        simp [initRec, recCountInt, objGet]
      simp [hf, hi, hr]
    · simp [hf]

theorem recCountInt_bumpedRec (cur : List (String × Json)) (fk : String)
    (f : Option Json) :
    recCountInt (bumpedRec cur fk f) = recCountInt (recOrInit cur fk f) + 1 := by
  unfold bumpedRec
  cases h : recOrInit cur fk f with
  | obj rs => simp [recCountInt, h, objGet_objSet_self]
  | null => simp [recCountInt, h, objGet]
  | bool b => simp [recCountInt, h, objGet]
  | num n => simp [recCountInt, h, objGet]
  | str s => simp [recCountInt, h, objGet]
  | arr xs => simp [recCountInt, h, objGet]

theorem modelCount_curFieldsOf (m : List (String × Json)) (k fk : String) :
    modelCount m k fk = followCountIn (curFieldsOf m k) fk := by
  unfold modelCount curFieldsOf followCountIn
  cases h : objGet m k with
  | none => simp [objGet]
  | some v =>
    cases v with
    | obj fs => simp [jsFalsy]
    | null => simp [jsFalsy, objGet]
    | bool b => cases b <;> simp [jsFalsy, objGet]
    | num n => by_cases hn : n = 0 <;> simp [jsFalsy, hn, objGet]
    | str s => by_cases hs : s = "" <;> simp [jsFalsy, hs, objGet]
    | arr xs => simp [jsFalsy, objGet]

theorem modelCount_windowStep (ss : Int) (p : List Json)
    (m : List (String × Json)) (i : Nat) (k fk : String) :
    modelCount (windowStep ss p m i) k fk =
      modelCount m k fk +
        (if k = windowKey ss p i ∧ fk = windowFollowKey ss p i then 1 else 0) := by
  have hws : windowStep ss p m i =
      objSet m (windowKey ss p i)
        (Json.obj (objSet (curFieldsOf m (windowKey ss p i))
          (windowFollowKey ss p i)
          (bumpedRec (curFieldsOf m (windowKey ss p i))
            (windowFollowKey ss p i) (windowFollow ss p i)))) := rfl
  by_cases hk : k = windowKey ss p i
  · subst hk
    by_cases hfk : fk = windowFollowKey ss p i
    · subst hfk
      simp only [and_self, if_true]
      have h2 : modelCount (windowStep ss p m i) (windowKey ss p i)
          (windowFollowKey ss p i) =
          recCountInt (bumpedRec (curFieldsOf m (windowKey ss p i))
            (windowFollowKey ss p i) (windowFollow ss p i)) := by
        unfold modelCount
        rw [hws, objGet_objSet_self]
        simp only [objGet_objSet_self]
      rw [h2, recCountInt_bumpedRec, recCountInt_recOrInit,
        ← modelCount_curFieldsOf]
    · simp only [hfk, and_false, if_false, add_zero]
      have h2 : modelCount (windowStep ss p m i) (windowKey ss p i) fk =
          followCountIn (curFieldsOf m (windowKey ss p i)) fk := by
        unfold modelCount followCountIn
        rw [hws, objGet_objSet_self]
        simp only [objGet_objSet_ne _ _ hfk]
      rw [h2, ← modelCount_curFieldsOf]
  · simp only [hk, false_and, if_false, add_zero]
    unfold modelCount
    rw [hws, objGet_objSet_ne _ _ hk]

theorem modelCount_foldl (ss : Int) (p : List Json) (is : List Nat) :
    ∀ m k fk,
    modelCount (is.foldl (windowStep ss p) m) k fk =
      modelCount m k fk +
        (is.countP (fun i =>
          decide (k = windowKey ss p i ∧ fk = windowFollowKey ss p i)) : Int) := by
  induction is with
  | nil => intro m k fk; simp
  | cons i is ih =>
    intro m k fk
    simp only [List.foldl_cons]
    rw [ih]
    rw [modelCount_windowStep]
    rw [List.countP_cons]
    by_cases h : k = windowKey ss p i ∧ fk = windowFollowKey ss p i
    · simp [h]; omega
    · simp [h]

/-- The padded run `[BEGIN x stateSize] ++ run ++ [END]` as built by
`Chain.build` (markov.ts lines 72-79). -/
def paddedOf (ss : Int) (run : List Json) : List Json :=
  createBeginState (jsOrInt ss DEFAULT_STATE_SIZE) ++ run ++ [Json.str END]

theorem processRun_eq (ss : Int) (m : List (String × Json)) (run : List Json) :
    processRun ss m run =
      (List.range (run.length + 1)).foldl (windowStep ss (paddedOf ss run)) m := rfl

theorem buildRuns_ok_arr (ss : Int) :
    ∀ (runs : List (List Json)) (m : List (String × Json)),
    buildRuns ss (runs.map Json.arr) m =
      Except.ok (runs.foldl (fun acc run => processRun ss acc run) m) := by
  intro runs
  induction runs with
  | nil => intro m; rfl
  | cons r rs ih =>
    intro m
    rw [List.map_cons, buildRuns]
    exact ih _

/-- Model-side count of matching windows in one run. -/
def runCountI (ss : Int) (run : List Json) (k fk : String) : Nat :=
  (List.range (run.length + 1)).countP (fun i =>
    decide (k = windowKey ss (paddedOf ss run) i ∧
      fk = windowFollowKey ss (paddedOf ss run) i))

theorem modelCount_processRun (ss : Int) (m : List (String × Json))
    (run : List Json) (k fk : String) :
    modelCount (processRun ss m run) k fk =
      modelCount m k fk + (runCountI ss run k fk : Int) := by
  rw [processRun_eq, modelCount_foldl]
  rfl

theorem modelCount_runs_foldl (ss : Int) :
    ∀ (runs : List (List Json)) (m : List (String × Json)) (k fk : String),
    modelCount (runs.foldl (fun acc run => processRun ss acc run) m) k fk =
      modelCount m k fk +
        ((runs.map (fun run => runCountI ss run k fk)).sum : Int) := by
  intro runs
  induction runs with
  | nil => intro m k fk; simp
  | cons r rs ih =>
    intro m k fk
    simp only [List.foldl_cons, List.map_cons, List.sum_cons]
    rw [ih, modelCount_processRun]
    push_cast
    ring

/-- The padded run in the specification's vocabulary. -/
def specPadded (ss : Nat) (run : List Json) : List Json :=
  List.replicate ss (Json.str BEGIN) ++ run ++ [Json.str END]

/-- One window of the padded run matches `(k, fk)`: the window state is the
`stateSize`-slice starting at `i` and the follow symbol is the element just
after it. -/
def specWindowHit (ss : Nat) (run : List Json) (i : Nat) (k fk : String) :
    Bool :=
  decide (k = createStateKey (Json.arr (((specPadded ss run).drop i).take ss))) &&
    decide (((specPadded ss run)[i + ss]?).map stringifyJson = some fk)

/-- Occurrences of the `(k, fk)` window in one run (window starts
`0 .. run.length` inclusive). -/
def specRunCount (ss : Nat) (run : List Json) (k fk : String) : Nat :=
  (List.range (run.length + 1)).countP (fun i => specWindowHit ss run i k fk)

/-- Occurrences of the `(k, fk)` window across all padded runs. -/
def specCorpusCount (ss : Nat) (runs : List (List Json)) (k fk : String) :
    Nat :=
  (runs.map (fun run => specRunCount ss run k fk)).sum

theorem jsSlice_nat (xs : List Json) (i : Nat) (s : Int) (hs : 0 ≤ s)
    (hbound : (i : Int) + s ≤ xs.length) :
    jsSlice xs i ((i : Int) + s) = (xs.drop i).take s.toNat := by
  unfold jsSlice
  have h1 : ¬((i : Int) < 0) := by omega
  have h2 : ¬((i : Int) + s < 0) := by omega
  simp only [h1, h2, if_false]
  have hlo : (min (i : Int) (xs.length : Int)).toNat = i := by omega
  have hhi : (min ((i : Int) + s) (xs.length : Int)).toNat = i + s.toNat := by
    omega
  rw [hlo, hhi]
  congr 1
  omega

theorem windowHit_bridge (ss : Int) (hss : 1 ≤ ss) (run : List Json) (i : Nat)
    (hi : i ≤ run.length) (k fk : String) :
    (decide (k = windowKey ss (paddedOf ss run) i ∧
      fk = windowFollowKey ss (paddedOf ss run) i)) =
      specWindowHit ss.toNat run i k fk := by
  have hpad : paddedOf ss run = specPadded ss.toNat run := by
    unfold paddedOf specPadded createBeginState
    have : jsOrInt ss DEFAULT_STATE_SIZE = ss := by
      unfold jsOrInt DEFAULT_STATE_SIZE
      have : ¬(ss = 0) := by omega
      simp [this]
    rw [this]
  have hlen : (paddedOf ss run).length = ss.toNat + run.length + 1 := by
    rw [hpad]
    simp [specPadded]
    omega
  have hend : windowEnd ss i = (i : Int) + ss := by
    unfold windowEnd jsOrInt
    have : ¬((i : Int) + ss = 0) := by omega
    simp [this]
  have hkey : windowKey ss (paddedOf ss run) i =
      createStateKey (Json.arr (((specPadded ss.toNat run).drop i).take
        ss.toNat)) := by
    unfold windowKey
    rw [hend, jsSlice_nat _ _ _ (by omega) (by rw [hlen]; push_cast; omega), hpad]
  have hidx : (i : Int) + ss ≥ 0 := by omega
  have hfol : windowFollow ss (paddedOf ss run) i =
      (specPadded ss.toNat run)[i + ss.toNat]? := by
    unfold windowFollow jsIndexInt
    rw [hend, hpad]
    have : ¬((i : Int) + ss < 0) := by omega
    simp only [this, if_false]
    congr 1
    omega
  have hinb : i + ss.toNat < (specPadded ss.toNat run).length := by
    rw [← hpad, hlen]
    omega
  obtain ⟨v, hv⟩ : ∃ v, (specPadded ss.toNat run)[i + ss.toNat]? = some v :=
    ⟨_, List.getElem?_eq_getElem hinb⟩
  have hfkey : windowFollowKey ss (paddedOf ss run) i = stringifyJson v := by
    unfold windowFollowKey
    rw [hfol, hv]
  unfold specWindowHit
  rw [hv, ← hkey]
  simp only [Option.map_some']
  rw [Bool.decide_and]
  congr 1
  rw [decide_eq_decide, hfkey]
  constructor
  · intro h; rw [h]
  · intro h; injection h with h; exact h.symm

/-- The concrete corpus of the specification's test scenario. -/
def c1Corpus : Json :=
  Json.arr [Json.arr [Json.str "foo", Json.str "bar", Json.str "baz",
    Json.str "qux."],
    Json.arr [Json.str "foo", Json.str "baz", Json.str "qux", Json.str "bar."]]

/-- A follow record `(value, count)`. -/
def recVC (v : Json) (c : Int) : Json :=
  Json.obj [("value", v), ("count", Json.num c)]

/-- The exact transition table the specification requires for `c1Corpus`
with `stateSize = 2`. -/
def c1Expected : Json :=
  Json.obj [
    (createStateKey (Json.arr [Json.str BEGIN, Json.str BEGIN]),
      Json.obj [(stringifyJson (Json.str "foo"), recVC (Json.str "foo") 2)]),
    (createStateKey (Json.arr [Json.str BEGIN, Json.str "foo"]),
      Json.obj [(stringifyJson (Json.str "bar"), recVC (Json.str "bar") 1),
        (stringifyJson (Json.str "baz"), recVC (Json.str "baz") 1)]),
    (createStateKey (Json.arr [Json.str "foo", Json.str "bar"]),
      Json.obj [(stringifyJson (Json.str "baz"), recVC (Json.str "baz") 1)]),
    (createStateKey (Json.arr [Json.str "bar", Json.str "baz"]),
      Json.obj [(stringifyJson (Json.str "qux."), recVC (Json.str "qux.") 1)]),
    (createStateKey (Json.arr [Json.str "baz", Json.str "qux."]),
      Json.obj [(stringifyJson (Json.str END), recVC (Json.str END) 1)]),
    (createStateKey (Json.arr [Json.str "foo", Json.str "baz"]),
      Json.obj [(stringifyJson (Json.str "qux"), recVC (Json.str "qux") 1)]),
    (createStateKey (Json.arr [Json.str "baz", Json.str "qux"]),
      Json.obj [(stringifyJson (Json.str "bar."), recVC (Json.str "bar.") 1)]),
    (createStateKey (Json.arr [Json.str "qux", Json.str "bar."]),
      Json.obj [(stringifyJson (Json.str END), recVC (Json.str END) 1)])]

/-- C1: for every corpus of runs and integer `stateSize >= 1`, `build`
succeeds and the stored count for each `(stateKey, followKey)` equals the
exact number of occurrences of that `(state, next-symbol)` window across
all padded runs (`stateSize` copies of `BEGIN` on the left, one `END` on
the right, window starts `0 .. run.length` inclusive); and on the concrete
two-run corpus with `stateSize = 2` it yields exactly the expected
transitions, and no others. -/
theorem c1_build_transition_counts :
    (∀ (runs : List (List Json)) (ss : Int), 1 ≤ ss →
      ∃ M, Chain.build (Json.arr (runs.map Json.arr)) ss =
          Except.ok (Json.obj M) ∧
        ∀ k fk, modelCount M k fk = (specCorpusCount ss.toNat runs k fk : Int)) ∧
    Chain.build c1Corpus 2 = Except.ok c1Expected := by
  constructor
  · intro runs ss hss
    refine ⟨runs.foldl (fun acc run => processRun ss acc run) [], ?_, ?_⟩
    · show Except.map Json.obj (buildRuns ss (runs.map Json.arr) []) =
        Except.ok (Json.obj (runs.foldl (fun acc run => processRun ss acc run) []))
      rw [buildRuns_ok_arr]
      rfl
    · intro k fk
      rw [modelCount_runs_foldl]
      have hz : modelCount [] k fk = 0 := rfl
      rw [hz]
      have hrun : ∀ run : List Json,
          runCountI ss run k fk = specRunCount ss.toNat run k fk := by
        intro run
        unfold runCountI specRunCount
        apply List.countP_congr
        intro i hi
        have hle : i ≤ run.length := by
          simp only [List.mem_range] at hi
          omega
        rw [windowHit_bridge ss hss run i hle k fk]
      unfold specCorpusCount
      simp only [hrun]
      omega
  · decide

/-- Witness for C1: on the one-run corpus `[["a"]]` with `stateSize = 1`
the count of the `([BEGIN], "a")` window is 1. -/
theorem c1_build_transition_counts_witness :
    ∃ M, Chain.build (Json.arr ([[Json.str "a"]].map Json.arr)) 1 =
        Except.ok (Json.obj M) ∧
      ∀ k fk, modelCount M k fk =
        (specCorpusCount (1 : Int).toNat [[Json.str "a"]] k fk : Int) :=
  c1_build_transition_counts.1 [[Json.str "a"]] 1 (by decide)

/-! ### Weighted sampling (C3) -/

/-- Total weight of a follow set (sum of its counts). -/
def totalCount (fs : List (String × Json)) : ℚ :=
  (fs.map (fun p => recCount p.2)).sum

/-- Sum of the first `j` counts of a follow set. -/
def prefixCount (fs : List (String × Json)) (j : Nat) : ℚ :=
  (((fs.map (fun p => recCount p.2)).take j)).sum

theorem cumSums_length (acc : ℚ) (ws : List ℚ) :
    (cumSums acc ws).length = ws.length := by
  induction ws generalizing acc with
  | nil => rfl
  | cons w ws ih => simp [cumSums, ih]

theorem cumSums_getElem (acc : ℚ) (ws : List ℚ) :
    ∀ j, j < ws.length →
      (cumSums acc ws)[j]? = some (acc + (ws.take (j + 1)).sum) := by
  induction ws generalizing acc with
  | nil => intro j hj; simp at hj
  | cons w ws ih =>
    intro j hj
    cases j with
    | zero => simp [cumSums]
    | succ j =>
      simp only [cumSums, List.getElem?_cons_succ]
      rw [ih (acc + w) j (by simpa using hj)]
      simp only [List.take_succ_cons, List.sum_cons]
      ring_nf

theorem cumSums_getLast (acc : ℚ) (ws : List ℚ) (h : ws ≠ []) :
    (cumSums acc ws).getLast?.getD 0 = acc + ws.sum := by
  induction ws generalizing acc with
  | nil => exact absurd rfl h
  | cons w ws ih =>
    by_cases hws : ws = []
    · subst hws
      simp [cumSums]
    · have hne : cumSums (acc + w) ws ≠ [] := by
        intro hc
        have hl := cumSums_length (acc + w) ws
        rw [hc] at hl
        cases ws with
        | nil => exact hws rfl
        | cons a b => simp at hl
      rw [show cumSums acc (w :: ws) = (acc + w) :: cumSums (acc + w) ws from rfl]
      have hstep : ((acc + w) :: cumSums (acc + w) ws).getLast? =
          (cumSums (acc + w) ws).getLast? := by
        cases hc : cumSums (acc + w) ws with
        | nil => exact absurd hc hne
        | cons b m => simp [List.getLast?_cons_cons]
      rw [hstep, ih (acc + w) hws]
      simp only [List.sum_cons]
      ring_nf

theorem countWhileGe_le (r : ℚ) (cs : List ℚ) : countWhileGe r cs ≤ cs.length := by
  induction cs with
  | nil => simp [countWhileGe]
  | cons c cs ih =>
    rw [countWhileGe]
    by_cases h : r ≥ c
    · simp only [h, if_true, List.length_cons]
      omega
    · simp [h]

theorem countWhileGe_prefix (r : ℚ) (cs : List ℚ) :
    ∀ j, j < countWhileGe r cs → ∃ c, cs[j]? = some c ∧ r ≥ c := by
  induction cs with
  | nil => intro j hj; simp [countWhileGe] at hj
  | cons c cs ih =>
    intro j hj
    rw [countWhileGe] at hj
    by_cases h : r ≥ c
    · rw [if_pos h] at hj
      cases j with
      | zero => exact ⟨c, by simp, h⟩
      | succ j =>
        obtain ⟨c2, hc2, hge⟩ := ih j (by omega)
        exact ⟨c2, by simpa using hc2, hge⟩
    · rw [if_neg h] at hj
      omega

theorem countWhileGe_stop (r : ℚ) (cs : List ℚ)
    (h : countWhileGe r cs < cs.length) :
    ∃ c, cs[countWhileGe r cs]? = some c ∧ r < c := by
  induction cs with
  | nil => simp at h
  | cons c cs ih =>
    rw [countWhileGe] at h ⊢
    by_cases hge : r ≥ c
    · rw [if_pos hge] at h ⊢
      obtain ⟨c2, hc2, hlt⟩ := ih (by simpa using h)
      exact ⟨c2, by simpa using hc2, hlt⟩
    · rw [if_neg hge] at h ⊢
      exact ⟨c, by simp, by linarith [not_le.mp hge]⟩

theorem prefixCount_zero (fs : List (String × Json)) : prefixCount fs 0 = 0 := by
  simp [prefixCount]

theorem prefixCount_succ (fs : List (String × Json)) (j : Nat)
    (hj : j < fs.length) :
    prefixCount fs (j + 1) =
      prefixCount fs j + recCount (fs.get ⟨j, hj⟩).2 := by
  unfold prefixCount
  rw [List.sum_take_succ _ j (by simpa using hj)]
  congr 1
  simp

theorem prefixCount_length_eq (fs : List (String × Json)) :
    prefixCount fs fs.length = totalCount fs := by
  unfold prefixCount totalCount
  rw [show fs.length = (fs.map (fun p => recCount p.2)).length by simp,
    List.take_length]

theorem prefixCount_mono (fs : List (String × Json))
    (hpos : ∀ p ∈ fs, 0 ≤ recCount p.2) {i j : Nat} (hij : i ≤ j) :
    prefixCount fs i ≤ prefixCount fs j := by
  unfold prefixCount
  obtain ⟨d, rfl⟩ := Nat.exists_eq_add_of_le hij
  rw [List.take_add, List.sum_append]
  have hnn : 0 ≤ (((fs.map (fun p => recCount p.2)).drop i).take d).sum := by
    apply List.sum_nonneg
    intro x hx
    have hx2 : x ∈ fs.map (fun p => recCount p.2) :=
      List.mem_of_mem_drop (List.mem_of_mem_take hx)
    obtain ⟨p, hp, rfl⟩ := List.mem_map.mp hx2
    exact hpos p hp
  linarith

theorem select_bracketing (fs : List (String × Json))
    (hpos : ∀ p ∈ fs, 0 ≤ recCount p.2)
    (htot : 0 < totalCount fs) (r : ℚ) (hr0 : 0 ≤ r)
    (hrt : r < totalCount fs) :
    countWhileGe r (cumSums 0 (fs.map (fun p => recCount p.2))) < fs.length ∧
    prefixCount fs
      (countWhileGe r (cumSums 0 (fs.map (fun p => recCount p.2)))) ≤ r ∧
    r < prefixCount fs
      (countWhileGe r (cumSums 0 (fs.map (fun p => recCount p.2))) + 1) ∧
    ∀ j' < countWhileGe r (cumSums 0 (fs.map (fun p => recCount p.2))),
      prefixCount fs (j' + 1) ≤ r := by
  have hlen : (cumSums 0 (fs.map (fun p => recCount p.2))).length = fs.length := by
    rw [cumSums_length]
    simp
  have helem : ∀ i, i < fs.length →
      (cumSums 0 (fs.map (fun p => recCount p.2)))[i]? =
        some (prefixCount fs (i + 1)) := by
    intro i hi
    rw [cumSums_getElem 0 _ i (by simpa using hi)]
    unfold prefixCount
    rw [zero_add]
  have hfs_ne : fs.length ≠ 0 := by
    intro hc
    have : fs = [] := List.length_eq_zero.mp hc
    rw [this] at htot
    simp [totalCount] at htot
  have hjle := countWhileGe_le r (cumSums 0 (fs.map (fun p => recCount p.2)))
  have hjlt : countWhileGe r (cumSums 0 (fs.map (fun p => recCount p.2))) <
      fs.length := by
    by_contra hge
    obtain ⟨c, hc, hcr⟩ := countWhileGe_prefix r
      (cumSums 0 (fs.map (fun p => recCount p.2))) (fs.length - 1)
      (by omega)
    rw [helem (fs.length - 1) (by omega)] at hc
    injection hc with hc
    rw [show fs.length - 1 + 1 = fs.length by omega, prefixCount_length_eq] at hc
    rw [hc] at hrt
    linarith
  refine ⟨hjlt, ?_, ?_, ?_⟩
  · cases hj : countWhileGe r (cumSums 0 (fs.map (fun p => recCount p.2))) with
    | zero => rw [prefixCount_zero]; exact hr0
    | succ j0 =>
      obtain ⟨c, hc, hcr⟩ := countWhileGe_prefix r
        (cumSums 0 (fs.map (fun p => recCount p.2))) j0 (by omega)
      rw [helem j0 (by omega)] at hc
      injection hc with hc
      rw [← hc] at hcr
      exact hcr
  · obtain ⟨c, hc, hcr⟩ := countWhileGe_stop r
      (cumSums 0 (fs.map (fun p => recCount p.2))) (by omega)
    rw [helem _ hjlt] at hc
    injection hc with hc
    rw [← hc] at hcr
    exact hcr
  · intro j' hj'
    obtain ⟨c, hc, hcr⟩ := countWhileGe_prefix r
      (cumSums 0 (fs.map (fun p => recCount p.2))) j' hj'
    rw [helem j' (by omega)] at hc
    injection hc with hc
    rw [← hc] at hcr
    exact hcr

theorem move_eq_select (c : Chain) (mfs fs : List (String × Json)) (s : Json)
    (u : ℚ) (hm : c.model = Json.obj mfs)
    (hentry : objGet (objDedup mfs) (createStateKey s) = some (Json.obj fs))
    (hk : keysUnique (fs.map Prod.fst) = true) :
    Chain.move c s u =
      ((fs.map (fun p => recValue p.2))[countWhileGe
        (u * ((cumSums 0 (fs.map (fun p => recCount p.2))).getLast?.getD 0))
        (cumSums 0 (fs.map (fun p => recCount p.2)))]?).bind id := by
  unfold Chain.move
  rw [hm]
  simp only [hentry, jsEnumEntries, objDedup_of_unique hk]
  rfl

/-- C3: `move` returns the no-transition sentinel exactly on states whose
key is absent from the model (not an error); otherwise, with the uniform
draw made explicit (`r = u * totalCount`), it returns the first follow
value (in encounter order) whose cumulative count exceeds `r`, hence always
a value present in the follow set, and (for distinct follow values) the set
of draws selecting a given value is the interval
`[prefix/total, (prefix+count)/total)` of measure `count/totalCount`. -/
theorem c3_move_weighted_sampling :
    (∀ (c : Chain) (mfs : List (String × Json)) (s : Json) (u : ℚ),
      c.model = Json.obj mfs →
      objGet (objDedup mfs) (createStateKey s) = none →
      Chain.move c s u = none) ∧
    (∀ (c : Chain) (mfs fs : List (String × Json)) (s : Json) (u : ℚ),
      c.model = Json.obj mfs →
      objGet (objDedup mfs) (createStateKey s) = some (Json.obj fs) →
      keysUnique (fs.map Prod.fst) = true →
      (∀ p ∈ fs, ∃ n : ℕ, recCount p.2 = (n : ℚ)) →
      0 < totalCount fs → 0 ≤ u → u < 1 →
      (∃ j, ∃ hj : j < fs.length,
        Chain.move c s u = recValue (fs.get ⟨j, hj⟩).2 ∧
        prefixCount fs j ≤ u * totalCount fs ∧
        u * totalCount fs < prefixCount fs (j + 1) ∧
        (∀ j' < j, prefixCount fs (j' + 1) ≤ u * totalCount fs)) ∧
      (∀ v, Chain.move c s u = some v → ∃ p ∈ fs, recValue p.2 = some v) ∧
      ((fs.map (fun p => recValue p.2)).Nodup →
        ∀ j, ∀ hj : j < fs.length,
        ((Chain.move c s u = recValue (fs.get ⟨j, hj⟩).2) ↔
          u ∈ Set.Ico (prefixCount fs j / totalCount fs)
            (prefixCount fs (j + 1) / totalCount fs)) ∧
        prefixCount fs (j + 1) / totalCount fs -
            prefixCount fs j / totalCount fs =
          recCount (fs.get ⟨j, hj⟩).2 / totalCount fs)) := by
  constructor
  · intro c mfs s u hm hnone
    unfold Chain.move
    rw [hm]
    simp only [hnone]
  · intro c mfs fs s u hm hentry hk hrec htot hu0 hu1
    have hpos : ∀ p ∈ fs, 0 ≤ recCount p.2 := by
      intro p hp
      obtain ⟨n, hn⟩ := hrec p hp
      rw [hn]
      positivity
    have hws_ne : fs.map (fun p => recCount p.2) ≠ [] := by
      intro hc
      have : totalCount fs = 0 := by
        unfold totalCount
        rw [hc]
        rfl
      rw [this] at htot
      exact lt_irrefl 0 htot
    have htotal_last :
        (cumSums 0 (fs.map (fun p => recCount p.2))).getLast?.getD 0 =
          totalCount fs := by
      rw [cumSums_getLast 0 _ hws_ne, zero_add]
      rfl
    have hmv := move_eq_select c mfs fs s u hm hentry hk
    rw [htotal_last] at hmv
    have hr0 : 0 ≤ u * totalCount fs := mul_nonneg hu0 htot.le
    have hrt : u * totalCount fs < totalCount fs := by
      calc u * totalCount fs < 1 * totalCount fs :=
        mul_lt_mul_of_pos_right hu1 htot
      _ = totalCount fs := one_mul _
    obtain ⟨hjlt, hPle, hPgt, hmin⟩ :=
      select_bracketing fs hpos htot (u * totalCount fs) hr0 hrt
    have hsel : Chain.move c s u =
        recValue (fs.get ⟨countWhileGe (u * totalCount fs)
          (cumSums 0 (fs.map (fun p => recCount p.2))), hjlt⟩).2 := by
      rw [hmv]
      rw [List.getElem?_map]
      rw [List.getElem?_eq_getElem hjlt]
      simp [List.get_eq_getElem]
    refine ⟨⟨_, hjlt, hsel, hPle, hPgt, hmin⟩, ?_, ?_⟩
    · intro v hv
      rw [hsel] at hv
      exact ⟨fs.get ⟨_, hjlt⟩, List.get_mem fs _ hjlt, hv⟩
    · intro hnd j' hj'
      have hbr_unique : ∀ j2, (hj2 : j2 < fs.length) →
          prefixCount fs j2 ≤ u * totalCount fs →
          u * totalCount fs < prefixCount fs (j2 + 1) →
          j2 = countWhileGe (u * totalCount fs)
            (cumSums 0 (fs.map (fun p => recCount p.2))) := by
        intro j2 hj2 hle2 hgt2
        by_contra hne
        rcases Nat.lt_or_ge j2 (countWhileGe (u * totalCount fs)
          (cumSums 0 (fs.map (fun p => recCount p.2)))) with hlt | hge
        · have := hmin j2 hlt
          linarith
        · have hlt2 : countWhileGe (u * totalCount fs)
              (cumSums 0 (fs.map (fun p => recCount p.2))) < j2 := by omega
          have hmono : prefixCount fs (countWhileGe (u * totalCount fs)
              (cumSums 0 (fs.map (fun p => recCount p.2))) + 1) ≤
              prefixCount fs j2 := prefixCount_mono fs hpos (by omega)
          linarith
      constructor
      · constructor
        · intro hmove
          have heq : (fs.map (fun p => recValue p.2)).get
              ⟨j', by simpa using hj'⟩ =
              (fs.map (fun p => recValue p.2)).get ⟨_, by simpa using hjlt⟩ := by
            simp only [List.get_map]
            rw [← hmove, ← hsel]
          have hj'_eq := (List.Nodup.get_inj_iff hnd).mp heq
          have hj'_eq2 : j' = countWhileGe (u * totalCount fs)
              (cumSums 0 (fs.map (fun p => recCount p.2))) := by
            have := congrArg Fin.val hj'_eq
            simpa using this
          rw [Set.mem_Ico]
          subst hj'_eq2
          constructor
          · rw [div_le_iff htot]
            linarith
          · rw [lt_div_iff htot]
            linarith
        · intro humem
          rw [Set.mem_Ico] at humem
          have h1 : prefixCount fs j' ≤ u * totalCount fs := by
            have := humem.1
            rw [div_le_iff htot] at this
            linarith
          have h2 : u * totalCount fs < prefixCount fs (j' + 1) := by
            have := humem.2
            rw [lt_div_iff htot] at this
            linarith
          have := hbr_unique j' hj' h1 h2
          subst this
          exact hsel
      · rw [prefixCount_succ fs j' hj']
        have hT : totalCount fs ≠ 0 := ne_of_gt htot
        field_simp

/-- Follow set used by the C3 witness. -/
def c3Fs : List (String × Json) :=
  [(stringifyJson (Json.str "a"),
    Json.obj [("value", Json.str "a"), ("count", Json.num 2)])]

/-- Model used by the C3 witness. -/
def c3Mfs : List (String × Json) :=
  [(createStateKey (Json.str "x"), Json.obj c3Fs)]

/-- Chain used by the C3 witness. -/
def c3Chain : Chain := { stateSize := Json.num 1, model := Json.obj c3Mfs }

/-- Witness for C3: on a one-entry follow set every draw selects the sole
value. -/
theorem c3_move_weighted_sampling_witness :
    Chain.move c3Chain (Json.str "x") (1 / 2) = some (Json.str "a") := by
  obtain ⟨⟨j, hj, hsel, h1, h2, h3⟩, hmem, hiii⟩ :=
    c3_move_weighted_sampling.2 c3Chain c3Mfs c3Fs (Json.str "x") (1 / 2) rfl
      (by decide) (by decide)
      (by intro p hp
          simp only [c3Fs, List.mem_singleton] at hp
          refine ⟨2, ?_⟩
          rw [hp]
          simp [recCount, objDedup, objSet, objGet])
      (by simp [totalCount, c3Fs, recCount, objDedup, objSet, objGet])
      (by norm_num) (by norm_num)
  have hj1 : j < 1 := by simpa [c3Fs] using hj
  have hj0 : j = 0 := by omega
  subst hj0
  rw [hsel]
  rfl

/-! ### Walk behaviour (C4, C5) -/

theorem objGet_mem {m : List (String × Json)} {k : String} {v : Json}
    (h : objGet m k = some v) : (k, v) ∈ m := by
  induction m with
  | nil => simp [objGet] at h
  | cons kv rest ih =>
    obtain ⟨k0, v0⟩ := kv
    by_cases h0 : k0 = k
    · subst h0
      simp [objGet] at h
      simp [h]
    · simp [objGet, h0] at h
      simp [ih h]

theorem mem_objSet_elim {m : List (String × Json)} {k : String} {v : Json}
    {p : String × Json} (h : p ∈ objSet m k v) : p = (k, v) ∨ p ∈ m := by
  induction m with
  | nil => simp [objSet] at h; simp [h]
  | cons kv rest ih =>
    obtain ⟨k0, v0⟩ := kv
    by_cases h0 : k0 = k
    · subst h0
      simp [objSet] at h
      rcases h with h | h
      · left; simp [h]
      · right; simp [h]
    · simp [objSet, h0] at h
      rcases h with h | h
      · right; simp [h]
      · rcases ih h with h2 | h2
        · left; exact h2
        · right; simp [h2]

theorem mem_objDedup_val {fs : List (String × Json)} {p : String × Json}
    (h : p ∈ objDedup fs) : ∃ q ∈ fs, q.2 = p.2 := by
  unfold objDedup at h
  suffices haux : ∀ (l : List (String × Json)) (acc : List (String × Json)),
      p ∈ l.foldl (fun a kv => objSet a kv.1 kv.2) acc →
      p ∈ acc ∨ ∃ q ∈ l, q.2 = p.2 by
    rcases haux fs [] h with hc | hc
    · simp at hc
    · exact hc
  intro l
  induction l with
  | nil => intro acc h2; simp at h2; exact Or.inl h2
  | cons kv rest ih =>
    intro acc h2
    simp only [List.foldl_cons] at h2
    rcases ih _ h2 with hc | hc
    · rcases mem_objSet_elim hc with hc2 | hc2
      · right
        exact ⟨kv, by simp, by rw [hc2]⟩
      · exact Or.inl hc2
    · right
      obtain ⟨q, hq, hq2⟩ := hc
      exact ⟨q, by simp [hq], hq2⟩

/-- All follow-record values of a model satisfy `P`, and all state entries
are objects. -/
def modelValuesP (P : Json → Prop) (m : List (String × Json)) : Prop :=
  ∀ e ∈ m, ∃ fs, e.2 = Json.obj fs ∧
    ∀ q ∈ fs, ∀ v, recValue q.2 = some v → P v

theorem recValue_initRec (f : Option Json) :
    recValue (initRec f) = some (f.getD Json.null) := by
  simp [initRec, recValue, objGet]

theorem recValue_bumpedRec (cur : List (String × Json)) (fk : String)
    (f : Option Json) :
    recValue (bumpedRec cur fk f) = recValue (recOrInit cur fk f) := by
  unfold bumpedRec
  cases h : recOrInit cur fk f with
  | obj rs =>
    simp only [recValue]
    rw [objGet_objSet_ne]
    intro hc
    exact absurd hc.symm (by decide)
  | null => simp [recValue, objGet, initRec, h]
  | bool b => simp [recValue, objGet, initRec, h]
  | num n => simp [recValue, objGet, initRec, h]
  | str s => simp [recValue, objGet, initRec, h]
  | arr xs => simp [recValue, objGet, initRec, h]

theorem modelValuesP_windowStep (P : Json → Prop) (ss : Int) (p : List Json)
    (m : List (String × Json)) (i : Nat)
    (hf : P ((windowFollow ss p i).getD Json.null))
    (hm : modelValuesP P m) : modelValuesP P (windowStep ss p m i) := by
  intro e he
  have hws : windowStep ss p m i =
      objSet m (windowKey ss p i)
        (Json.obj (objSet (curFieldsOf m (windowKey ss p i))
          (windowFollowKey ss p i)
          (bumpedRec (curFieldsOf m (windowKey ss p i))
            (windowFollowKey ss p i) (windowFollow ss p i)))) := rfl
  rw [hws] at he
  have hcur : ∀ q ∈ curFieldsOf m (windowKey ss p i), ∀ v,
      recValue q.2 = some v → P v := by
    intro q hq v hv
    unfold curFieldsOf at hq
    cases hg : objGet m (windowKey ss p i) with
    | none => simp only [hg] at hq; simp at hq
    | some w =>
      simp only [hg] at hq
      by_cases hfw : jsFalsy w = true
      · rw [if_pos hfw] at hq; simp at hq
      · rw [if_neg hfw] at hq
        cases w with
        | obj fs0 =>
          obtain ⟨fs1, hfs1, hrec⟩ := hm _ (objGet_mem hg)
          injection hfs1 with hfs1
          subst hfs1
          exact hrec q hq v hv
        | null => simp at hq
        | bool b => simp at hq
        | num n => simp at hq
        | str s => simp at hq
        | arr xs => simp at hq
  have hbump : ∀ v, recValue (bumpedRec (curFieldsOf m (windowKey ss p i))
      (windowFollowKey ss p i) (windowFollow ss p i)) = some v → P v := by
    intro v hv
    rw [recValue_bumpedRec] at hv
    unfold recOrInit at hv
    cases hg : objGet (curFieldsOf m (windowKey ss p i))
        (windowFollowKey ss p i) with
    | none =>
      simp only [hg] at hv
      rw [recValue_initRec] at hv
      injection hv with hv
      rw [← hv]
      exact hf
    | some r =>
      simp only [hg] at hv
      by_cases hfr : jsFalsy r = true
      · rw [if_pos hfr] at hv
        rw [recValue_initRec] at hv
        injection hv with hv
        rw [← hv]
        exact hf
      · rw [if_neg hfr] at hv
        exact hcur _ (objGet_mem hg) v hv
  rcases mem_objSet_elim he with he2 | he2
  · refine ⟨_, by rw [he2], ?_⟩
    intro q hq v hv
    rcases mem_objSet_elim hq with hq2 | hq2
    · rw [hq2] at hv
      exact hbump v hv
    · exact hcur q hq2 v hv
  · exact hm e he2

theorem modelValuesP_processRun (P : Json → Prop) (ss : Int) (hss : 1 ≤ ss)
    (run : List Json)
    (hrunP : ∀ v ∈ run, P v) (hend : P (Json.str END))
    (m : List (String × Json)) (hm : modelValuesP P m) :
    modelValuesP P (processRun ss m run) := by
  rw [processRun_eq]
  have hfol : ∀ i ∈ List.range (run.length + 1),
      P ((windowFollow ss (paddedOf ss run) i).getD Json.null) := by
    intro i hi
    simp only [List.mem_range] at hi
    have hile : i ≤ run.length := by omega
    have hpad : paddedOf ss run = specPadded ss.toNat run := by
      unfold paddedOf specPadded createBeginState
      have hz : jsOrInt ss DEFAULT_STATE_SIZE = ss := by
        unfold jsOrInt DEFAULT_STATE_SIZE
        have : ¬(ss = 0) := by omega
        simp [this]
      rw [hz]
    have hend2 : windowEnd ss i = (i : Int) + ss := by
      unfold windowEnd jsOrInt
      have : ¬((i : Int) + ss = 0) := by omega
      simp [this]
    have hfol2 : windowFollow ss (paddedOf ss run) i =
        (specPadded ss.toNat run)[i + ss.toNat]? := by
      unfold windowFollow jsIndexInt
      rw [hend2, hpad]
      have : ¬((i : Int) + ss < 0) := by omega
      simp only [this, if_false]
      congr 1
      omega
    rw [hfol2]
    have hsplit : (specPadded ss.toNat run)[i + ss.toNat]? =
        (run ++ [Json.str END])[i]? := by
      unfold specPadded
      rw [List.append_assoc]
      rw [List.getElem?_append_right (by simp)]
      have hidx : i + ss.toNat - (List.replicate ss.toNat
          (Json.str BEGIN)).length = i := by
        simp
      rw [hidx]
    rw [hsplit]
    by_cases hilt : i < run.length
    · have hx : (run ++ [Json.str END])[i]? = some run[i] := by
        rw [List.getElem?_append_left hilt]
        exact List.getElem?_eq_getElem hilt
      rw [hx]
      exact hrunP _ (List.getElem_mem hilt)
    · have hieq : i = run.length := by omega
      subst hieq
      have hx : (run ++ [Json.str END])[run.length]? = some (Json.str END) := by
        rw [List.getElem?_append_right (le_refl _)]
        simp
      rw [hx]
      exact hend
  have hfold : ∀ (is : List Nat) (m0 : List (String × Json)),
      (∀ i ∈ is, P ((windowFollow ss (paddedOf ss run) i).getD Json.null)) →
      modelValuesP P m0 →
      modelValuesP P (is.foldl (windowStep ss (paddedOf ss run)) m0) := by
    intro is
    induction is with
    | nil => intro m0 _ hm0; exact hm0
    | cons a as ih =>
      intro m0 hall hm0
      simp only [List.foldl_cons]
      exact ih _ (fun i hi => hall i (by simp [hi]))
        (modelValuesP_windowStep P ss _ m0 a (hall a (by simp)) hm0)
  exact hfold _ m hfol hm

theorem modelValuesP_runs_foldl (P : Json → Prop) (ss : Int) (hss : 1 ≤ ss) :
    ∀ (runs : List (List Json)) (m : List (String × Json)),
    (∀ run ∈ runs, ∀ v ∈ run, P v) → P (Json.str END) → modelValuesP P m →
    modelValuesP P (runs.foldl (fun acc run => processRun ss acc run) m) := by
  intro runs
  induction runs with
  | nil => intro m _ _ hm; exact hm
  | cons r rs ih =>
    intro m hall hend hm
    simp only [List.foldl_cons]
    exact ih _ (fun run hr => hall run (by simp [hr])) hend
      (modelValuesP_processRun P ss hss r (hall r (by simp)) hend m hm)

theorem move_P (P : Json → Prop) (c : Chain) (mfs : List (String × Json))
    (hmodel : c.model = Json.obj mfs) (hP : modelValuesP P mfs)
    (s : Json) (u : ℚ) (v : Json)
    (hv : Chain.move c s u = some v) : P v := by
  unfold Chain.move at hv
  rw [hmodel] at hv
  cases hst : objGet (objDedup mfs) (createStateKey s) with
  | none =>
    simp only [hst] at hv
    exact Option.noConfusion hv
  | some st =>
    simp only [hst] at hv
    by_cases hf : jsFalsy st = true
    · rw [if_pos hf] at hv
      exact absurd hv (by simp)
    · rw [if_neg hf] at hv
      rw [List.getElem?_map] at hv
      obtain ⟨o, ho, hov⟩ := Option.bind_eq_some.mp hv
      obtain ⟨kv, hkv, hrec⟩ := Option.map_eq_some'.mp ho
      simp only [id] at hov
      rw [hov] at hrec
      have hkvmem : kv ∈ jsEnumEntries st := List.getElem?_mem hkv
      obtain ⟨q, hq, hq2⟩ := mem_objDedup_val (objGet_mem hst)
      have hq2x : q.2 = st := hq2
      obtain ⟨gs, hgs, hvals⟩ := hP q hq
      rw [hq2x] at hgs
      rw [hgs] at hkvmem
      simp only [jsEnumEntries] at hkvmem
      obtain ⟨q2, hq2mem, hq2val⟩ := mem_objDedup_val hkvmem
      exact hvals q2 hq2mem v (by rw [hq2val]; exact hrec)

theorem walkAux_steps (P : Json → Prop) (c : Chain) (mfs : List (String × Json))
    (hmodel : c.model = Json.obj mfs) (hP : modelValuesP P mfs) (us : Nat → ℚ) :
    ∀ (fuel i : Nat) (state : List Json),
      ∀ x ∈ (Chain.walkAux c us fuel i state).1, P x ∧ x ≠ Json.str END := by
  intro fuel
  induction fuel with
  | zero => intro i state x hx; simp [Chain.walkAux] at hx
  | succ f ih =>
    intro i state x hx
    rw [Chain.walkAux] at hx
    cases hmove : Chain.move c (Json.arr state) (us i) with
    | none => simp only [hmove] at hx; simp at hx
    | some step =>
      simp only [hmove] at hx
      by_cases hstep : step = Json.str END
      · rw [if_pos hstep] at hx; simp at hx
      · rw [if_neg hstep] at hx
        simp only [List.mem_cons] at hx
        rcases hx with h | h
        · subst h
          exact ⟨move_P P c mfs hmodel hP _ _ _ hmove, hstep⟩
        · exact ih (i + 1) (state.tail ++ [step]) x h

theorem walkAux_finalState (c : Chain) (us : Nat → ℚ) :
    ∀ (fuel i : Nat) (state : List Json), state ≠ [] →
      (Chain.walkAux c us fuel i state).2 =
        (state ++ (Chain.walkAux c us fuel i state).1).drop
          (Chain.walkAux c us fuel i state).1.length := by
  intro fuel
  induction fuel with
  | zero => intro i state hne; simp [Chain.walkAux]
  | succ f ih =>
    intro i state hne
    rw [Chain.walkAux]
    cases hmove : Chain.move c (Json.arr state) (us i) with
    | none => simp
    | some step =>
      by_cases hstep : step = Json.str END
      · simp [hstep]
      · simp only [if_neg hstep]
        cases state with
        | nil => exact absurd rfl hne
        | cons h0 t0 =>
          have hne2 : (h0 :: t0).tail ++ [step] ≠ [] := by simp
          have := ih (i + 1) ((h0 :: t0).tail ++ [step]) hne2
          simp only [List.tail_cons] at this ⊢
          rw [this]
          simp only [List.length_cons, List.cons_append, List.drop_succ_cons,
            List.append_assoc, List.singleton_append, List.nil_append]

/-- C4: for a chain built (with `stateSize = ss >= 1`) from a corpus none of
whose symbols is the `BEGIN` or `END` sentinel: `walk()` with no argument
starts from `ss` copies of `BEGIN`; each iteration stops as soon as `move`
returns the no-transition sentinel or `END`, and otherwise prepends the
moved symbol to the output and slides the state window (dropping the oldest
element and appending the new symbol, preserving the length); and the
returned sequence never contains `BEGIN` or `END`. -/
theorem c4_walk_behavior (corpus : List (List Json)) (ss : Int) (hss : 1 ≤ ss)
    (hfree : ∀ run ∈ corpus, ∀ x ∈ run, x ≠ Json.str BEGIN ∧ x ≠ Json.str END)
    (model : Json)
    (hbuild : Chain.build (Json.arr (corpus.map Json.arr)) ss = Except.ok model)
    (c : Chain) (hc : c = { stateSize := Json.num ss, model := model })
    (us : Nat → ℚ) (fuel : Nat) :
    Chain.walk c none us fuel =
      Chain.walkAux c us fuel 0 (List.replicate ss.toNat (Json.str BEGIN)) ∧
    (∀ (f i : Nat) (state : List Json),
      (Chain.move c (Json.arr state) (us i) = none →
        Chain.walkAux c us (f + 1) i state = ([], state)) ∧
      (Chain.move c (Json.arr state) (us i) = some (Json.str END) →
        Chain.walkAux c us (f + 1) i state = ([], state)) ∧
      (∀ step, Chain.move c (Json.arr state) (us i) = some step →
        step ≠ Json.str END →
        Chain.walkAux c us (f + 1) i state =
          (step :: (Chain.walkAux c us f (i + 1) (state.tail ++ [step])).1,
            (Chain.walkAux c us f (i + 1) (state.tail ++ [step])).2) ∧
        (state ≠ [] → (state.tail ++ [step]).length = state.length))) ∧
    (∀ fromState, ∀ x ∈ (Chain.walk c fromState us fuel).1,
      x ≠ Json.str BEGIN ∧ x ≠ Json.str END) := by
  subst hc
  refine ⟨rfl, ?_, ?_⟩
  · intro f i state
    refine ⟨?_, ?_, ?_⟩
    · intro hmove
      rw [Chain.walkAux]
      simp only [hmove]
    · intro hmove
      rw [Chain.walkAux]
      simp [hmove]
    · intro step hmove hne
      refine ⟨?_, ?_⟩
      · rw [Chain.walkAux]
        simp only [hmove, if_neg hne]
      · intro hsne
        cases state with
        | nil => exact absurd rfl hsne
        | cons h t => simp
  · have hmap : Except.map Json.obj (buildRuns ss (corpus.map Json.arr) []) =
        Except.ok model := hbuild
    rw [buildRuns_ok_arr] at hmap
    have hmodel : model =
        Json.obj (corpus.foldl (fun acc run => processRun ss acc run) []) := by
      cases hmap
      rfl
    have hPm : modelValuesP
        (fun x => (∃ run ∈ corpus, x ∈ run) ∨ x = Json.str END)
        (corpus.foldl (fun acc run => processRun ss acc run) []) :=
      modelValuesP_runs_foldl _ ss hss corpus []
        (fun run hr v hv => Or.inl ⟨run, hr, hv⟩) (Or.inr rfl)
        (fun e he => absurd he (List.not_mem_nil e))
    intro fromState x hx
    have hx2 : ∃ s0, x ∈ (Chain.walkAux
        { stateSize := Json.num ss, model := model } us fuel 0 s0).1 := by
      cases fromState with
      | some s => exact ⟨s, hx⟩
      | none => exact ⟨createBeginState (jsToIntDefault (Json.num ss)), hx⟩
    obtain ⟨s0, hx0⟩ := hx2
    have hsteps := walkAux_steps
      (fun x => (∃ run ∈ corpus, x ∈ run) ∨ x = Json.str END)
      { stateSize := Json.num ss, model := model } _ hmodel hPm us fuel 0
      s0 x hx0
    obtain ⟨hPx, hxEnd⟩ := hsteps
    refine ⟨?_, hxEnd⟩
    rcases hPx with ⟨run, hr, hxr⟩ | hxe
    · exact (hfree run hr x hxr).1
    · exact absurd hxe hxEnd

/-- Corpus used by the C4 witness. -/
def c4Corpus : List (List Json) := [[Json.str "a"]]

/-- Transition table `build` produces for `c4Corpus` with `stateSize = 1`. -/
def c4Model : Json :=
  Json.obj [("[\"@@MARKOV_CHAIN_BEGIN\"]",
      Json.obj [("\"a\"", recVC (Json.str "a") 1)]),
    ("[\"a\"]",
      Json.obj [("\"@@MARKOV_CHAIN_END\"", recVC (Json.str END) 1)])]

/-- Chain used by the C4 witness. -/
def c4Chain : Chain := { stateSize := Json.num 1, model := c4Model }

/-- Fixed random stream used by the C4/C5 witnesses. -/
def c4Us : Nat → ℚ := fun _ => 0

/-- Witness for C4: the one-run corpus `[["a"]]` with `stateSize = 1`,
no symbol of which is a sentinel, builds `c4Model`, and `walk()` on the
resulting chain starts from one copy of `BEGIN`. -/
theorem c4_walk_behavior_witness :
    (1 : Int) ≤ 1 ∧
    (∀ run ∈ c4Corpus, ∀ x ∈ run,
      x ≠ Json.str BEGIN ∧ x ≠ Json.str END) ∧
    Chain.build (Json.arr (c4Corpus.map Json.arr)) 1 = Except.ok c4Model ∧
    Chain.walk c4Chain none c4Us 3 =
      Chain.walkAux c4Chain c4Us 3 0
        (List.replicate (1 : Int).toNat (Json.str BEGIN)) :=
  ⟨by decide, by decide, by decide,
    (c4_walk_behavior c4Corpus 1 (by decide) (by decide) c4Model (by decide)
      c4Chain rfl c4Us 3).1⟩

/-- C5 (corrected): `walk` is NOT free of side effects on a supplied
`fromState` — the JS loop executes `state.shift(); state.push(step)` on the
very array the caller passed in.  Afterwards the array holds the final
window, `(fromState ++ steps).drop steps.length` (for the non-empty states
the claim quantifies over), which can differ from the original content, as
the counterexample exhibits. -/
theorem c5_walk_mutates_from_state (c : Chain) (us : Nat → ℚ) (fuel : Nat)
    (fromState : List Json) (h : fromState ≠ []) :
    (Chain.walk c (some fromState) us fuel).2 =
      (fromState ++ (Chain.walk c (some fromState) us fuel).1).drop
        (Chain.walk c (some fromState) us fuel).1.length :=
  walkAux_finalState c us fuel 0 fromState h

/-- Follow-set fields of the model used by the C5 counterexample and
witness (the table `build` produces for the corpus `[["a","b"]]` with
`stateSize = 1`). -/
def c5Mfs : List (String × Json) :=
  [("[\"@@MARKOV_CHAIN_BEGIN\"]",
      Json.obj [("\"a\"", recVC (Json.str "a") 1)]),
    ("[\"a\"]", Json.obj [("\"b\"", recVC (Json.str "b") 1)]),
    ("[\"b\"]",
      Json.obj [("\"@@MARKOV_CHAIN_END\"", recVC (Json.str END) 1)])]

/-- Chain used by the C5 counterexample and witness. -/
def c5Chain : Chain := { stateSize := Json.num 1, model := Json.obj c5Mfs }

/-- Fixed random stream used by the C5 counterexample and witness. -/
def c5Us : Nat → ℚ := fun _ => 0

theorem recCount_recVC (v : Json) (n : Int) : recCount (recVC v n) = (n : ℚ) := by
  simp [recCount, recVC, objGet]

theorem recValue_recVC (v : Json) (n : Int) : recValue (recVC v n) = some v := by
  simp [recValue, recVC, objGet]

theorem c5move1 :
    Chain.move c5Chain (Json.arr [Json.str "a"]) 0 = some (Json.str "b") := by
  rw [move_eq_select c5Chain c5Mfs [("\"b\"", recVC (Json.str "b") 1)]
    (Json.arr [Json.str "a"]) 0 rfl (by decide) (by decide)]
  simp [recCount_recVC, recValue_recVC, cumSums, countWhileGe]

theorem c5move2 :
    Chain.move c5Chain (Json.arr [Json.str "b"]) 0 = some (Json.str END) := by
  rw [move_eq_select c5Chain c5Mfs
    [("\"@@MARKOV_CHAIN_END\"", recVC (Json.str END) 1)]
    (Json.arr [Json.str "b"]) 0 rfl (by decide) (by decide)]
  simp [recCount_recVC, recValue_recVC, cumSums, countWhileGe]

/-- Counterexample to the literal C5: on the chain built from `[["a","b"]]`
(`stateSize = 1`), `walk(["a"])` leaves the caller's array holding `["b"]`,
not the original `["a"]` — the call is not side-effect-free. -/
theorem c5_walk_mutates_from_state_counterexample :
    Chain.build (Json.arr [Json.arr [Json.str "a", Json.str "b"]]) 1 =
      Except.ok (Json.obj c5Mfs) ∧
    (Chain.walk c5Chain (some [Json.str "a"]) c5Us 5).1 = [Json.str "b"] ∧
    (Chain.walk c5Chain (some [Json.str "a"]) c5Us 5).2 ≠ [Json.str "a"] := by
  have e2 : Chain.walkAux c5Chain c5Us 4 1 [Json.str "b"] =
      ([], [Json.str "b"]) := by
    show Chain.walkAux c5Chain c5Us (3 + 1) 1 [Json.str "b"] =
      ([], [Json.str "b"])
    rw [Chain.walkAux]
    have hu : c5Us 1 = 0 := rfl
    rw [hu, c5move2]
    simp
  have e1 : Chain.walkAux c5Chain c5Us (4 + 1) 0 [Json.str "a"] =
      ([Json.str "b"], [Json.str "b"]) := by
    rw [Chain.walkAux]
    have hu : c5Us 0 = 0 := rfl
    rw [hu, c5move1]
    simp [e2, END]
  have h5 : Chain.walk c5Chain (some [Json.str "a"]) c5Us 5 =
      ([Json.str "b"], [Json.str "b"]) := e1
  rw [h5]
  exact ⟨by decide, rfl, by decide⟩

/-- Witness for C5 (corrected): on the same chain, after `walk(["a"])` the
caller's array holds `(["a"] ++ steps).drop steps.length`. -/
theorem c5_walk_mutates_from_state_witness :
    ([Json.str "a"] : List Json) ≠ [] ∧
    (Chain.walk c5Chain (some [Json.str "a"]) c5Us 5).2 =
      ([Json.str "a"] ++ (Chain.walk c5Chain (some [Json.str "a"]) c5Us 5).1).drop
        (Chain.walk c5Chain (some [Json.str "a"]) c5Us 5).1.length :=
  ⟨by decide,
    c5_walk_mutates_from_state c5Chain c5Us 5 [Json.str "a"] (by decide)⟩

/-- C8 (corrected): `fromJSON` does fail (an exception, no partial Chain)
when the text is not parseable JSON, but its failures do not coincide with
the claimed shape requirement: no `stateSize` field is required (nor an
integer one) — a parsed object whose `model` is the empty array is
accepted, the missing or falsy `stateSize` silently defaulting and any
truthy value being stored as-is. -/
theorem c8_fromJSON_failure :
    (∀ text, parseJson text = none → Chain.fromJSON text = none) ∧
    (∀ text fs, parseJson text = some (Json.obj fs) →
      objGet (objDedup fs) "model" = some (Json.arr []) →
      Chain.fromJSON text =
        some { stateSize := effStateSize (objGet (objDedup fs) "stateSize"),
               model := Json.obj [] }) := by
  constructor
  · intro text h
    unfold Chain.fromJSON
    rw [h]
  · intro text fs hp hm
    unfold Chain.fromJSON
    rw [hp]
    simp only [jsGetField, hm, jsLength, jsLoopBound, readStates, mkChain,
      Int.toNat_zero, List.foldl_nil]

/-- Counterexample to the literal C8: the text has no `stateSize` field at
all — it does not match the claimed required shape — yet `fromJSON`
returns a chain (with the default state size) instead of failing. -/
theorem c8_fromJSON_failure_counterexample :
    Chain.fromJSON "\x7b\"model\":[]\x7d" =
      some { stateSize := Json.num 1, model := Json.obj [] } := by decide

/-- Witness for C8: unparseable text fails; a parsed object with a
non-integer `stateSize` and an empty-array `model` succeeds, storing the
bogus `stateSize` as-is. -/
theorem c8_fromJSON_failure_witness :
    Chain.fromJSON "" = none ∧
    Chain.fromJSON "\x7b\"stateSize\":\"woof\",\"model\":[]\x7d" =
      some { stateSize := Json.str "woof", model := Json.obj [] } := by
  constructor
  · exact c8_fromJSON_failure.1 "" (by decide)
  · exact c8_fromJSON_failure.2 "\x7b\"stateSize\":\"woof\",\"model\":[]\x7d"
      [("stateSize", Json.str "woof"), ("model", Json.arr [])]
      (by decide) (by decide)

/-! ### Canonical chains and the serialisation round-trip (C2, C9) -/

theorem natChars_inj {a b : Nat} (h : natChars a = natChars b) : a = b := by
  have ha := parseNatNum_natChars a [] (by intro c hc; simp at hc)
  have hb := parseNatNum_natChars b [] (by intro c hc; simp at hc)
  rw [List.append_nil] at ha hb
  rw [h, hb] at ha
  injection ha with ha2
  exact (Prod.mk.injEq _ _ _ _).mp ha2 |>.1 |>.symm

theorem decimalStr_inj : Function.Injective decimalStr := by
  intro a b h
  have hd : natChars a = natChars b := congrArg String.data h
  exact natChars_inj hd

theorem wfJsonList_iff_mem {xs : List Json} :
    wfJsonList xs = true ↔ ∀ x ∈ xs, wfJson x = true := by
  induction xs with
  | nil => simp [wfJsonList]
  | cons x rest ih => simp [wfJsonList, ih]

theorem wfJsonFields_iff_mem {fs : List (String × Json)} :
    wfJsonFields fs = true ↔ ∀ p ∈ fs, wfJson p.2 = true := by
  induction fs with
  | nil => simp [wfJsonFields]
  | cons p rest ih =>
    obtain ⟨k, v⟩ := p
    simp [wfJsonFields, ih]

theorem keysUnique_iff_nodup : ∀ {ks : List String},
    keysUnique ks = true ↔ ks.Nodup := by
  intro ks
  induction ks with
  | nil => simp [keysUnique]
  | cons k rest ih =>
    simp only [keysUnique, Bool.and_eq_true, Bool.not_eq_true', List.nodup_cons,
      ih]
    constructor
    · intro ⟨h1, h2⟩
      refine ⟨?_, h2⟩
      simp at h1
      exact h1
    · intro ⟨h1, h2⟩
      refine ⟨?_, h2⟩
      simp [h1]

theorem mem_map_fst_objSet {m : List (String × Json)} {k a : String} {v : Json}
    (h : a ∈ (objSet m k v).map Prod.fst) : a ∈ m.map Prod.fst ∨ a = k := by
  simp only [List.mem_map] at h
  obtain ⟨p, hp, hpa⟩ := h
  rcases mem_objSet_elim hp with h2 | h2
  · right; rw [h2] at hpa; exact hpa.symm ▸ rfl
  · left; exact List.mem_map.mpr ⟨p, h2, hpa⟩

theorem keysUnique_objSet (m : List (String × Json)) (k : String) (v : Json)
    (h : keysUnique (m.map Prod.fst) = true) :
    keysUnique ((objSet m k v).map Prod.fst) = true := by
  induction m with
  | nil => simp [objSet, keysUnique]
  | cons p rest ih =>
    obtain ⟨k0, v0⟩ := p
    obtain ⟨hk0, hrest⟩ := keysUnique_cons (by simpa using h)
    by_cases he : k0 = k
    · subst he
      simp only [objSet, if_pos rfl, List.map_cons]
      rw [keysUnique_iff_nodup]
      rw [keysUnique_iff_nodup] at hrest
      exact List.nodup_cons.mpr ⟨hk0, hrest⟩
    · simp only [objSet, if_neg he, List.map_cons]
      rw [keysUnique_iff_nodup, List.nodup_cons]
      refine ⟨?_, keysUnique_iff_nodup.mp (ih hrest)⟩
      intro hmem
      rcases mem_map_fst_objSet hmem with h2 | h2
      · exact hk0 h2
      · exact he h2

theorem wfJsonFields_objSet {m : List (String × Json)} {k : String} {v : Json}
    (hm : wfJsonFields m = true) (hv : wfJson v = true) :
    wfJsonFields (objSet m k v) = true := by
  rw [wfJsonFields_iff_mem]
  rw [wfJsonFields_iff_mem] at hm
  intro p hp
  rcases mem_objSet_elim hp with h2 | h2
  · rw [h2]; exact hv
  · exact hm p h2

theorem keysUnique_objDedup (fs : List (String × Json)) :
    keysUnique ((objDedup fs).map Prod.fst) = true := by
  unfold objDedup
  suffices haux : ∀ (l acc : List (String × Json)),
      keysUnique (acc.map Prod.fst) = true →
      keysUnique ((l.foldl (fun a kv => objSet a kv.1 kv.2) acc).map
        Prod.fst) = true by
    exact haux fs [] rfl
  intro l
  induction l with
  | nil => intro acc h; exact h
  | cons kv rest ih =>
    intro acc h
    simp only [List.foldl_cons]
    exact ih _ (keysUnique_objSet acc kv.1 kv.2 h)

theorem wfJsonFields_objDedup {fs : List (String × Json)}
    (h : wfJsonFields fs = true) : wfJsonFields (objDedup fs) = true := by
  rw [wfJsonFields_iff_mem]
  intro p hp
  obtain ⟨q, hq, hq2⟩ := mem_objDedup_val hp
  rw [← hq2]
  exact wfJsonFields_iff_mem.mp h q hq

theorem objGet_wf {fs : List (String × Json)} {k : String} {v : Json}
    (hwf : wfJsonFields fs = true) (h : objGet fs k = some v) :
    wfJson v = true :=
  wfJsonFields_iff_mem.mp hwf _ (objGet_mem h)

theorem keysUnique_index_keys (n : Nat) (ys : List Json) (hlen : ys.length = n) :
    keysUnique ((((List.range n).zip ys).map
      (fun p => (decimalStr p.1, p.2))).map Prod.fst) = true := by
  rw [keysUnique_iff_nodup]
  have h1 : (((List.range n).zip ys).map
      (fun p => (decimalStr p.1, p.2))).map Prod.fst
      = (((List.range n).zip ys).map Prod.fst).map decimalStr := by
    simp [List.map_map, Function.comp]
  rw [h1, List.map_fst_zip _ _ (by simp [hlen])]
  exact List.Nodup.map decimalStr_inj (List.nodup_range n)

theorem mem_snd_index_entries {n : Nat} {ys : List Json} {p : String × Json}
    (hp : p ∈ ((List.range n).zip ys).map
      (fun q => (decimalStr q.1, q.2))) : p.2 ∈ ys := by
  simp only [List.mem_map] at hp
  obtain ⟨q, hq, hqe⟩ := hp
  obtain ⟨a, b⟩ := q
  have hb : b ∈ ys := (List.of_mem_zip hq).2
  rw [← hqe]
  exact hb

theorem keysUnique_jsEnumEntries (x : Json) :
    keysUnique ((jsEnumEntries x).map Prod.fst) = true := by
  cases x with
  | obj fs => exact keysUnique_objDedup fs
  | str s => exact keysUnique_index_keys s.length _ (by simp)
  | arr xs => exact keysUnique_index_keys xs.length _ rfl
  | null => rfl
  | bool b => rfl
  | num n => rfl

theorem wfJsonFields_jsEnumEntries {x : Json} (h : wfJson x = true) :
    wfJsonFields (jsEnumEntries x) = true := by
  cases x with
  | obj fs =>
    simp only [wfJson, Bool.and_eq_true] at h
    exact wfJsonFields_objDedup h.2
  | str s =>
    rw [wfJsonFields_iff_mem]
    intro p hp
    have := mem_snd_index_entries hp
    simp only [List.mem_map] at this
    obtain ⟨c, _, hc⟩ := this
    rw [← hc]
    rfl
  | arr xs =>
    rw [wfJsonFields_iff_mem]
    intro p hp
    exact wfJsonList_iff_mem.mp h _ (mem_snd_index_entries hp)
  | null => rfl
  | bool b => rfl
  | num n => rfl

theorem jsIndex_wf {x : Json} (h : wfJson x = true) {i : Nat} {v : Json}
    (hv : jsIndex x i = some v) : wfJson v = true := by
  cases x with
  | arr xs => exact wfJsonList_iff_mem.mp h v (List.getElem?_mem hv)
  | str s =>
    obtain ⟨c, _, hc⟩ := Option.map_eq_some'.mp hv
    rw [← hc]
    rfl
  | obj fs =>
    simp only [wfJson, Bool.and_eq_true] at h
    exact objGet_wf (wfJsonFields_objDedup h.2) hv
  | null => simp [jsIndex] at hv
  | bool b => simp [jsIndex] at hv
  | num n => simp [jsIndex] at hv

theorem jsDestr2_wf {x : Json} (h : wfJson x = true) {a b : Option Json}
    (hd : jsDestr2 (some x) = some (a, b)) :
    (∀ v, a = some v → wfJson v = true) ∧
    (∀ v, b = some v → wfJson v = true) := by
  cases x with
  | arr xs =>
    simp only [jsDestr2, Option.some.injEq, Prod.mk.injEq] at hd
    obtain ⟨ha, hb⟩ := hd
    constructor
    · intro v hva
      rw [← ha] at hva
      exact wfJsonList_iff_mem.mp h v (List.getElem?_mem hva)
    · intro v hvb
      rw [← hb] at hvb
      exact wfJsonList_iff_mem.mp h v (List.getElem?_mem hvb)
  | str s =>
    simp only [jsDestr2, Option.some.injEq, Prod.mk.injEq] at hd
    obtain ⟨ha, hb⟩ := hd
    constructor
    · intro v hva
      rw [← ha] at hva
      obtain ⟨c, _, hc⟩ := Option.map_eq_some'.mp hva
      rw [← hc]; rfl
    · intro v hvb
      rw [← hb] at hvb
      obtain ⟨c, _, hc⟩ := Option.map_eq_some'.mp hvb
      rw [← hc]; rfl
  | null => simp [jsDestr2] at hd
  | bool bb => simp [jsDestr2] at hd
  | num n => simp [jsDestr2] at hd
  | obj fs => simp [jsDestr2] at hd

theorem jsAssignCopy_canon (o : Option Json)
    (h : ∀ v, o = some v → wfJson v = true) :
    ∃ rs, jsAssignCopy o = Json.obj rs ∧
      keysUnique (rs.map Prod.fst) = true ∧ wfJsonFields rs = true := by
  cases o with
  | none => exact ⟨[], rfl, rfl, rfl⟩
  | some v =>
    exact ⟨jsEnumEntries v, rfl, keysUnique_jsEnumEntries v,
      wfJsonFields_jsEnumEntries (h v rfl)⟩

theorem jsFalsy_effStateSize (o : Option Json) :
    jsFalsy (effStateSize o) = false := by
  cases o with
  | none => rfl
  | some v =>
    by_cases hf : jsFalsy v = true
    · simp [effStateSize, hf]
      rfl
    · simp [effStateSize, hf]

theorem wfJson_effStateSize (o : Option Json)
    (h : ∀ v, o = some v → wfJson v = true) :
    wfJson (effStateSize o) = true := by
  cases o with
  | none => rfl
  | some v =>
    by_cases hf : jsFalsy v = true
    · simp [effStateSize, hf]
      rfl
    · simp [effStateSize, hf]
      exact h v rfl

theorem parse_wf : ∀ fuel : Nat,
    (∀ cs v r, parseJ fuel cs = some (v, r) → wfJson v = true) ∧
    (∀ cs acc v r, wfJsonList acc = true →
      parseElems fuel cs acc = some (v, r) → wfJson v = true) ∧
    (∀ cs acc v r, keysUnique (acc.map Prod.fst) = true →
      wfJsonFields acc = true →
      parseFields fuel cs acc = some (v, r) → wfJson v = true) := by
  intro fuel
  induction fuel with
  | zero =>
    refine ⟨?_, ?_, ?_⟩
    · intro cs v r h; simp [parseJ] at h
    · intro cs acc v r _ h; simp [parseElems] at h
    · intro cs acc v r _ _ h; simp [parseFields] at h
  | succ f ih =>
    obtain ⟨ihJ, ihE, ihF⟩ := ih
    refine ⟨?_, ?_, ?_⟩
    · intro cs v r h
      rcases cs with _ | ⟨c, rest⟩
      · rw [parseJ.eq_def] at h
        simp at h
      · rw [parseJ.eq_def] at h
        simp only [] at h
        repeat' split at h
        all_goals
          first
          | (injection h with h2
             rw [Prod.mk.injEq] at h2
             rw [← h2.1]
             rfl)
          | exact Option.noConfusion h
          | (obtain ⟨p, hp1, hp⟩ := Option.map_eq_some'.mp h
             rw [Prod.mk.injEq] at hp
             rw [← hp.1]
             rfl)
          | exact ihE _ [] _ _ rfl h
          | exact ihF _ [] _ _ rfl rfl h
    · intro cs acc v r hacc h
      rw [parseElems.eq_def] at h
      simp only [] at h
      cases hj : parseJ f cs with
      | none => simp only [hj] at h; exact Option.noConfusion h
      | some p =>
        obtain ⟨w, r1⟩ := p
        simp only [hj] at h
        have hw : wfJson w = true := ihJ cs w r1 hj
        have hacc2 : wfJsonList (acc ++ [w]) = true := by
          rw [wfJsonList_iff_mem]
          intro x hx
          rcases List.mem_append.mp hx with hx2 | hx2
          · exact wfJsonList_iff_mem.mp hacc x hx2
          · rw [List.mem_singleton.mp hx2]; exact hw
        split at h
        · exact ihE _ _ _ _ hacc2 h
        · injection h with h2
          rw [Prod.mk.injEq] at h2
          rw [← h2.1]
          simpa [wfJson] using hacc2
        · exact Option.noConfusion h
    · intro cs acc v r hku hacc h
      rw [parseFields.eq_def] at h
      simp only [] at h
      split at h
      case _ cs2 =>
        cases hs : parseStrAux cs2 [] with
        | none => simp only [hs] at h; exact Option.noConfusion h
        | some q =>
          obtain ⟨k, r0⟩ := q
          simp only [hs] at h
          split at h
          case _ r2 =>
            cases hj : parseJ f r2 with
            | none => simp only [hj] at h; exact Option.noConfusion h
            | some p =>
              obtain ⟨w, r3⟩ := p
              simp only [hj] at h
              have hw : wfJson w = true := ihJ r2 w r3 hj
              split at h
              · exact ihF _ _ _ _ (keysUnique_objSet acc k w hku)
                  (wfJsonFields_objSet hacc hw) h
              · injection h with h2
                rw [Prod.mk.injEq] at h2
                rw [← h2.1]
                simp only [wfJson, Bool.and_eq_true]
                exact ⟨keysUnique_objSet acc k w hku,
                  wfJsonFields_objSet hacc hw⟩
              · exact Option.noConfusion h
          case _ => exact Option.noConfusion h
      case _ => exact Option.noConfusion h

theorem parseJson_wf {s : String} {v : Json} (h : parseJson s = some v) :
    wfJson v = true := by
  unfold parseJson at h
  cases hp : parseJ (s.data.length + 1) s.data with
  | none => rw [hp] at h; exact Option.noConfusion h
  | some p =>
    obtain ⟨w, r⟩ := p
    rw [hp] at h
    cases r with
    | nil =>
      simp only [Option.some.injEq] at h
      rw [← h]
      exact (parse_wf (s.data.length + 1)).1 s.data w [] hp
    | cons c cr => exact Option.noConfusion h

/-- A follow record as `fromJSON` rebuilds it (and as the specification's
round-trip contract assumes): an object with unique keys and well-formed
field values. -/
def recCanonB : Json → Bool
  | Json.obj rs => keysUnique (rs.map Prod.fst) && wfJsonFields rs
  | _ => false

/-- Follow sets whose records are all canonical. -/
def recordsCanonB (gs : List (String × Json)) : Bool :=
  gs.all (fun q => recCanonB q.2)

/-- A follow-set value as `fromJSON` rebuilds it: a unique-keyed object of
canonical records. -/
def stateCanonB : Json → Bool
  | Json.obj gs => keysUnique (gs.map Prod.fst) && recordsCanonB gs
  | _ => false

/-- Model entries whose values are all canonical follow sets. -/
def modelCanonB (mfs : List (String × Json)) : Bool :=
  mfs.all (fun e => stateCanonB e.2)

/-- Canonical chains: every chain `fromJSON` returns has this shape, and
every such chain round-trips exactly through serialisation. -/
def chainCanonB (c : Chain) : Bool :=
  !jsFalsy c.stateSize && wfJson c.stateSize &&
  (match c.model with
   | Json.obj mfs => keysUnique (mfs.map Prod.fst) && modelCanonB mfs
   | _ => false)

theorem recordsCanonB_objSet {m : List (String × Json)} {k : String} {v : Json}
    (hm : recordsCanonB m = true) (hv : recCanonB v = true) :
    recordsCanonB (objSet m k v) = true := by
  simp only [recordsCanonB, List.all_eq_true] at *
  intro q hq
  rcases mem_objSet_elim hq with h2 | h2
  · rw [h2]; exact hv
  · exact hm q h2

theorem jsGetField_wf {x : Json} (hx : wfJson x = true) {k : String}
    {o : Option Json} (h : jsGetField x k = some o) :
    ∀ v, o = some v → wfJson v = true := by
  intro v hv
  cases x with
  | obj fs =>
    simp only [jsGetField, Option.some.injEq] at h
    rw [← h] at hv
    simp only [wfJson, Bool.and_eq_true] at hx
    exact objGet_wf (wfJsonFields_objDedup hx.2) hv
  | null => exact Option.noConfusion h
  | bool b =>
    simp only [jsGetField, Option.some.injEq] at h
    rw [← h] at hv
    exact Option.noConfusion hv
  | num n =>
    simp only [jsGetField, Option.some.injEq] at h
    rw [← h] at hv
    exact Option.noConfusion hv
  | str s =>
    simp only [jsGetField, Option.some.injEq] at h
    rw [← h] at hv
    exact Option.noConfusion hv
  | arr xs =>
    simp only [jsGetField, Option.some.injEq] at h
    rw [← h] at hv
    exact Option.noConfusion hv

theorem readPairs_canonOut (follow : Json) (hwf : wfJson follow = true) :
    ∀ (m j : Nat) (acc : List (String × Json)),
      keysUnique (acc.map Prod.fst) = true → recordsCanonB acc = true →
      ∀ fm, readPairs follow j m acc = some fm →
        keysUnique (fm.map Prod.fst) = true ∧ recordsCanonB fm = true := by
  intro m
  induction m with
  | zero =>
    intro j acc h1 h2 fm h
    injection h with h3
    rw [← h3]
    exact ⟨h1, h2⟩
  | succ mm ih =>
    intro j acc h1 h2 fm h
    rw [readPairs] at h
    cases hx : jsIndex follow j with
    | none => rw [hx] at h; simp [jsDestr2] at h
    | some x =>
      rw [hx] at h
      have hxwf := jsIndex_wf hwf hx
      cases hd : jsDestr2 (some x) with
      | none => rw [hd] at h; simp at h
      | some pq =>
        obtain ⟨fkV, fdV⟩ := pq
        simp only [hd] at h
        have hfd := (jsDestr2_wf hxwf hd).2
        obtain ⟨rs, hrs, hrsk, hrsw⟩ := jsAssignCopy_canon fdV hfd
        have hcanon : recCanonB (jsAssignCopy fdV) = true := by
          rw [hrs]
          simp only [recCanonB, Bool.and_eq_true]
          exact ⟨hrsk, hrsw⟩
        exact ih _ _ (keysUnique_objSet acc _ _ h1)
          (recordsCanonB_objSet h2 hcanon) fm h

theorem readStates_canonOut (modelV : Json) (hwf : wfJson modelV = true) :
    ∀ (n i : Nat) (acc : List (Option Json × Json)),
      (∀ e ∈ acc, stateCanonB e.2 = true) →
      ∀ states, readStates modelV i n acc = some states →
        ∀ e ∈ states, stateCanonB e.2 = true := by
  intro n
  induction n with
  | zero =>
    intro i acc hacc states h
    injection h with h2
    rw [← h2]
    exact hacc
  | succ nn ih =>
    intro i acc hacc states h
    rw [readStates] at h
    cases hx : jsIndex modelV i with
    | none => rw [hx] at h; simp [jsDestr2] at h
    | some x =>
      rw [hx] at h
      have hxwf := jsIndex_wf hwf hx
      cases hd : jsDestr2 (some x) with
      | none => rw [hd] at h; simp at h
      | some pq =>
        obtain ⟨skV, followV⟩ := pq
        simp only [hd] at h
        have hfo := (jsDestr2_wf hxwf hd).2
        cases hlen : jsLength followV with
        | none => rw [hlen] at h; simp at h
        | some flenV =>
          simp only [hlen] at h
          have hfwf : wfJson (followV.getD Json.null) = true := by
            cases followV with
            | none => rfl
            | some fw => exact hfo fw rfl
          cases hrp : readPairs (followV.getD Json.null) 0
              (jsLoopBound flenV) [] with
          | none => rw [hrp] at h; simp at h
          | some fm =>
            simp only [hrp] at h
            obtain ⟨hfmk, hfmc⟩ :=
              readPairs_canonOut _ hfwf _ _ [] rfl rfl fm hrp
            refine ih _ _ ?_ states h
            intro e he
            rcases List.mem_append.mp he with h2 | h2
            · exact hacc e h2
            · rw [List.mem_singleton.mp h2]
              simp only [stateCanonB, Bool.and_eq_true]
              exact ⟨hfmk, hfmc⟩

theorem foldl_objSet_canon (P : Json → Bool)
    (states : List (Option Json × Json)) :
    ∀ acc : List (String × Json),
      keysUnique (acc.map Prod.fst) = true →
      (∀ p ∈ acc, P p.2 = true) →
      (∀ e ∈ states, P e.2 = true) →
      keysUnique ((states.foldl
        (fun a kv => objSet a (jsKeyOf kv.1) kv.2) acc).map Prod.fst) = true ∧
      ∀ p ∈ states.foldl (fun a kv => objSet a (jsKeyOf kv.1) kv.2) acc,
        P p.2 = true := by
  induction states with
  | nil => intro acc h1 h2 _; exact ⟨h1, h2⟩
  | cons kv rest ih =>
    intro acc h1 h2 h3
    simp only [List.foldl_cons]
    refine ih _ (keysUnique_objSet acc _ _ h1) ?_
      (fun e he => h3 e (by simp [he]))
    intro p hp
    rcases mem_objSet_elim hp with h4 | h4
    · rw [h4]; exact h3 kv (by simp)
    · exact h2 p h4

theorem fromJSON_canon {text : String} {d : Chain}
    (h : Chain.fromJSON text = some d) : chainCanonB d = true := by
  unfold Chain.fromJSON at h
  cases hp : parseJson text with
  | none => rw [hp] at h; exact Option.noConfusion h
  | some parsed =>
    simp only [hp] at h
    have hpw := parseJson_wf hp
    cases hss : jsGetField parsed "stateSize" with
    | none => rw [hss] at h; exact Option.noConfusion h
    | some stateSizeV =>
      simp only [hss] at h
      cases hmv : jsGetField parsed "model" with
      | none => rw [hmv] at h; exact Option.noConfusion h
      | some modelV =>
        simp only [hmv] at h
        cases hlen : jsLength modelV with
        | none => rw [hlen] at h; exact Option.noConfusion h
        | some lenV =>
          simp only [hlen] at h
          have hmwf : wfJson (modelV.getD Json.null) = true := by
            cases modelV with
            | none => rfl
            | some mv => exact jsGetField_wf hpw hmv mv rfl
          cases hrs : readStates (modelV.getD Json.null) 0
              (jsLoopBound lenV) [] with
          | none => rw [hrs] at h; exact Option.noConfusion h
          | some states =>
            simp only [hrs] at h
            have hstates := readStates_canonOut _ hmwf _ _ []
              (fun e he => absurd he (List.not_mem_nil e)) states hrs
            simp only [mkChain] at h
            injection h with h2
            obtain ⟨hkeys, hvals⟩ := foldl_objSet_canon stateCanonB states []
              rfl (fun p hp => absurd hp (List.not_mem_nil p)) hstates
            rw [← h2]
            simp only [chainCanonB, Bool.and_eq_true]
            refine ⟨⟨?_, ?_⟩, ?_⟩
            · simp [jsFalsy_effStateSize]
            · exact wfJson_effStateSize _ (jsGetField_wf hpw hss)
            · refine ⟨hkeys, ?_⟩
              simp only [modelCanonB, List.all_eq_true]
              exact hvals

theorem recCanonB_obj {v : Json} (h : recCanonB v = true) :
    ∃ rs, v = Json.obj rs ∧ keysUnique (rs.map Prod.fst) = true ∧
      wfJsonFields rs = true := by
  cases v with
  | obj rs =>
    refine ⟨rs, rfl, ?_, ?_⟩
    · exact (Bool.and_eq_true _ _).mp h |>.1
    · exact (Bool.and_eq_true _ _).mp h |>.2
  | null => exact Bool.noConfusion h
  | bool b => exact Bool.noConfusion h
  | num n => exact Bool.noConfusion h
  | str s => exact Bool.noConfusion h
  | arr xs => exact Bool.noConfusion h

theorem stateCanonB_obj {v : Json} (h : stateCanonB v = true) :
    ∃ gs, v = Json.obj gs ∧ keysUnique (gs.map Prod.fst) = true ∧
      recordsCanonB gs = true := by
  cases v with
  | obj gs =>
    refine ⟨gs, rfl, ?_, ?_⟩
    · exact (Bool.and_eq_true _ _).mp h |>.1
    · exact (Bool.and_eq_true _ _).mp h |>.2
  | null => exact Bool.noConfusion h
  | bool b => exact Bool.noConfusion h
  | num n => exact Bool.noConfusion h
  | str s => exact Bool.noConfusion h
  | arr xs => exact Bool.noConfusion h

theorem recCanonB_wf {v : Json} (h : recCanonB v = true) : wfJson v = true := by
  obtain ⟨rs, hrs, h1, h2⟩ := recCanonB_obj h
  rw [hrs]
  simp only [wfJson, Bool.and_eq_true]
  exact ⟨h1, h2⟩

theorem wfJsonList_followEnc {gs : List (String × Json)}
    (h : recordsCanonB gs = true) :
    wfJsonList (gs.map (fun fv => Json.arr [Json.str fv.1, fv.2])) = true := by
  rw [wfJsonList_iff_mem]
  intro x hx
  obtain ⟨fv, hfv, hxe⟩ := List.mem_map.mp hx
  rw [← hxe]
  have hc : recCanonB fv.2 = true := by
    simp only [recordsCanonB, List.all_eq_true] at h
    exact h fv hfv
  simp only [wfJson, wfJsonList, Bool.and_eq_true]
  exact ⟨trivial, recCanonB_wf hc, trivial⟩

theorem wfJson_toJSON (c : Chain) (h : chainCanonB c = true) :
    wfJson (Chain.toJSON c) = true := by
  simp only [chainCanonB, Bool.and_eq_true] at h
  obtain ⟨⟨hf, hws⟩, hmod⟩ := h
  cases hm : c.model with
  | obj mfs =>
    rw [hm] at hmod
    have hmod2 : (keysUnique (mfs.map Prod.fst) && modelCanonB mfs) = true :=
      hmod
    rw [Bool.and_eq_true] at hmod2
    obtain ⟨hku, hmc⟩ := hmod2
    unfold Chain.toJSON
    rw [hm]
    simp only [jsEnumEntries]
    rw [objDedup_of_unique hku]
    simp only [wfJson, wfJsonFields, wfJsonList, List.map_cons, List.map_nil,
      Bool.and_eq_true]
    refine ⟨by decide, hws, ?_, trivial⟩
    rw [wfJsonList_iff_mem]
    intro x hx
    obtain ⟨kv, hkv, hxe⟩ := List.mem_map.mp hx
    rw [← hxe]
    have hsc : stateCanonB kv.2 = true := by
      simp only [modelCanonB, List.all_eq_true] at hmc
      exact hmc kv hkv
    obtain ⟨gs, hgs, hgsk, hgsr⟩ := stateCanonB_obj hsc
    rw [hgs]
    simp only [jsEnumEntries]
    rw [objDedup_of_unique hgsk]
    simp only [wfJson, wfJsonList, Bool.and_eq_true]
    exact ⟨trivial, wfJsonList_followEnc hgsr, trivial⟩
  | null => rw [hm] at hmod; exact Bool.noConfusion hmod
  | bool b => rw [hm] at hmod; exact Bool.noConfusion hmod
  | num n => rw [hm] at hmod; exact Bool.noConfusion hmod
  | str s => rw [hm] at hmod; exact Bool.noConfusion hmod
  | arr xs => rw [hm] at hmod; exact Bool.noConfusion hmod

theorem readPairs_enc (gs : List (String × Json))
    (hrec : recordsCanonB gs = true) :
    ∀ (m j : Nat) (acc : List (String × Json)),
      j + m = gs.length →
      keysUnique ((gs.drop j).map Prod.fst) = true →
      (∀ q ∈ gs.drop j, objGet acc q.1 = none) →
      readPairs (Json.arr (gs.map (fun fv => Json.arr [Json.str fv.1, fv.2])))
        j m acc = some (acc ++ gs.drop j) := by
  intro m
  induction m with
  | zero =>
    intro j acc hlen _ _
    have hd : gs.drop j = [] := List.drop_eq_nil_of_le (by omega)
    rw [hd, List.append_nil]
    rfl
  | succ mm ih =>
    intro j acc hlen hkd hdis
    have hj : j < gs.length := by omega
    have hdropc : gs.drop j = gs[j] :: gs.drop (j + 1) :=
      List.drop_eq_getElem_cons hj
    rw [readPairs]
    have hidx : jsIndex (Json.arr (gs.map (fun fv =>
        Json.arr [Json.str fv.1, fv.2]))) j =
        some (Json.arr [Json.str (gs[j]).1, (gs[j]).2]) := by
      simp only [jsIndex]
      rw [List.getElem?_map, List.getElem?_eq_getElem hj]
      rfl
    simp only [hidx, jsDestr2, List.getElem?_cons_zero, List.getElem?_cons_succ,
      Option.map_some']
    have hrecj : recCanonB (gs[j]).2 = true := by
      simp only [recordsCanonB, List.all_eq_true] at hrec
      exact hrec _ (List.getElem_mem hj)
    obtain ⟨rs, hrs, hrsk, hrsw⟩ := recCanonB_obj hrecj
    have hcopy : jsAssignCopy (some ((gs[j]).2)) = (gs[j]).2 := by
      rw [hrs]
      simp only [jsAssignCopy, jsEnumEntries]
      rw [objDedup_of_unique hrsk]
    have hkey : jsKeyOf (some (Json.str (gs[j]).1)) = (gs[j]).1 := rfl
    rw [hkey, hcopy]
    have hget : objGet acc (gs[j]).1 = none :=
      hdis (gs[j]) (by rw [hdropc]; exact List.mem_cons_self _ _)
    rw [objSet_of_objGet_none _ hget]
    rw [hdropc] at hkd
    simp only [List.map_cons] at hkd
    obtain ⟨hne, hkd2⟩ := keysUnique_cons hkd
    have hdis2 : ∀ q ∈ gs.drop (j + 1),
        objGet (acc ++ [((gs[j]).1, (gs[j]).2)]) q.1 = none := by
      intro q hq
      rw [objGet_append_of_none
        (hdis q (by rw [hdropc]; exact List.mem_cons_of_mem _ hq))]
      have hqne : ¬((gs[j]).1 = q.1) := by
        intro he
        exact hne (he ▸ List.mem_map_of_mem Prod.fst hq)
      simp [objGet, hqne]
    rw [ih (j + 1) _ (by omega) hkd2 hdis2]
    rw [hdropc]
    simp

theorem readStates_enc (mfs : List (String × Json))
    (hcanon : modelCanonB mfs = true) :
    ∀ (n i : Nat) (acc : List (Option Json × Json)),
      i + n = mfs.length →
      readStates (Json.arr (mfs.map (fun kv => Json.arr [Json.str kv.1,
          Json.arr ((jsEnumEntries kv.2).map
            (fun fv => Json.arr [Json.str fv.1, fv.2]))]))) i n acc =
        some (acc ++ (mfs.drop i).map
          (fun kv => (some (Json.str kv.1), kv.2))) := by
  intro n
  induction n with
  | zero =>
    intro i acc hlen
    have hd : mfs.drop i = [] := List.drop_eq_nil_of_le (by omega)
    rw [hd]
    simp only [List.map_nil, List.append_nil]
    rfl
  | succ nn ih =>
    intro i acc hlen
    have hi : i < mfs.length := by omega
    have hdropc : mfs.drop i = mfs[i] :: mfs.drop (i + 1) :=
      List.drop_eq_getElem_cons hi
    rw [readStates]
    have hidx : jsIndex (Json.arr (mfs.map (fun kv => Json.arr [Json.str kv.1,
        Json.arr ((jsEnumEntries kv.2).map
          (fun fv => Json.arr [Json.str fv.1, fv.2]))]))) i =
        some (Json.arr [Json.str (mfs[i]).1,
          Json.arr ((jsEnumEntries (mfs[i]).2).map
            (fun fv => Json.arr [Json.str fv.1, fv.2]))]) := by
      simp only [jsIndex]
      rw [List.getElem?_map, List.getElem?_eq_getElem hi]
      rfl
    simp only [hidx, jsDestr2, List.getElem?_cons_zero, List.getElem?_cons_succ,
      Option.map_some']
    have hsc : stateCanonB (mfs[i]).2 = true := by
      simp only [modelCanonB, List.all_eq_true] at hcanon
      exact hcanon _ (List.getElem_mem hi)
    obtain ⟨gs, hgs, hgsk, hgsr⟩ := stateCanonB_obj hsc
    have henum : jsEnumEntries (mfs[i]).2 = gs := by
      rw [hgs]
      simp only [jsEnumEntries]
      exact objDedup_of_unique hgsk
    rw [henum]
    have hlenf : jsLength (some (Json.arr (gs.map
        (fun fv => Json.arr [Json.str fv.1, fv.2])))) =
        some (some (Json.num (gs.length : Int))) := by
      simp [jsLength]
    have hloop : jsLoopBound (some (Json.num (gs.length : Int))) = gs.length := by
      simp [jsLoopBound]
    simp only [hlenf, Option.getD_some, hloop,
      readPairs_enc gs hgsr gs.length 0 [] (by omega) (by simpa using hgsk)
        (fun q _ => rfl), List.nil_append, List.drop_zero]
    rw [← hgs]
    rw [ih (i + 1) _ (by omega)]
    rw [hdropc]
    simp
    rw [List.drop_eq_getElem_cons (show i < (List.map (fun kv =>
      ((some (Json.str kv.1) : Option Json), kv.2)) mfs).length by
        simpa using hi)]
    simp

theorem serialize_roundtrip_canon (c : Chain) (h : chainCanonB c = true) :
    Chain.fromJSON (serializeChain c) = some c := by
  have hwfj : wfJson (Chain.toJSON c) = true := wfJson_toJSON c h
  have hp : parseJson (serializeChain c) = some (Chain.toJSON c) :=
    parseJson_stringify hwfj
  simp only [chainCanonB, Bool.and_eq_true] at h
  obtain ⟨⟨hf, hws⟩, hmod⟩ := h
  cases hm : c.model with
  | obj mfs =>
    rw [hm] at hmod
    have hmod2 : (keysUnique (mfs.map Prod.fst) && modelCanonB mfs) = true :=
      hmod
    rw [Bool.and_eq_true] at hmod2
    obtain ⟨hku, hmc⟩ := hmod2
    have htj : Chain.toJSON c = Json.obj [("stateSize", c.stateSize),
        ("model", Json.arr (mfs.map (fun kv => Json.arr [Json.str kv.1,
          Json.arr ((jsEnumEntries kv.2).map
            (fun fv => Json.arr [Json.str fv.1, fv.2]))])))] := by
      unfold Chain.toJSON
      rw [hm]
      simp only [jsEnumEntries]
      rw [objDedup_of_unique hku]
    unfold Chain.fromJSON
    rw [hp, htj]
    have hod : objDedup [("stateSize", c.stateSize),
        ("model", Json.arr (mfs.map (fun kv => Json.arr [Json.str kv.1,
          Json.arr ((jsEnumEntries kv.2).map
            (fun fv => Json.arr [Json.str fv.1, fv.2]))])))] =
        [("stateSize", c.stateSize),
         ("model", Json.arr (mfs.map (fun kv => Json.arr [Json.str kv.1,
           Json.arr ((jsEnumEntries kv.2).map
             (fun fv => Json.arr [Json.str fv.1, fv.2]))])))] :=
      objDedup_of_unique (by simp [keysUnique])
    simp only [jsGetField, hod]
    have hg1 : objGet [("stateSize", c.stateSize),
        ("model", Json.arr (mfs.map (fun kv => Json.arr [Json.str kv.1,
          Json.arr ((jsEnumEntries kv.2).map
            (fun fv => Json.arr [Json.str fv.1, fv.2]))])))] "stateSize" =
        some c.stateSize := by
      simp [objGet]
    have hg2 : objGet [("stateSize", c.stateSize),
        ("model", Json.arr (mfs.map (fun kv => Json.arr [Json.str kv.1,
          Json.arr ((jsEnumEntries kv.2).map
            (fun fv => Json.arr [Json.str fv.1, fv.2]))])))] "model" =
        some (Json.arr (mfs.map (fun kv => Json.arr [Json.str kv.1,
          Json.arr ((jsEnumEntries kv.2).map
            (fun fv => Json.arr [Json.str fv.1, fv.2]))]))) := by
      simp [objGet]
    simp only [hg1, hg2, Option.getD_some]
    have hlenL : jsLength (some (Json.arr (mfs.map (fun kv =>
        Json.arr [Json.str kv.1, Json.arr ((jsEnumEntries kv.2).map
          (fun fv => Json.arr [Json.str fv.1, fv.2]))])))) =
        some (some (Json.num (mfs.length : Int))) := by
      simp [jsLength]
    have hloopL : jsLoopBound (some (Json.num (mfs.length : Int))) =
        mfs.length := by
      simp [jsLoopBound]
    simp only [hlenL, hloopL, Option.getD_some]
    rw [readStates_enc mfs hmc mfs.length 0 [] (by omega)]
    simp only [List.drop_zero, List.nil_append]
    simp only [List.foldl_map]
    have hfold : mfs.foldl (fun a kv =>
        objSet a (jsKeyOf (some (Json.str kv.1), kv.2).1)
          (some (Json.str kv.1), kv.2).2) [] = mfs := by
      have he : (fun (a : List (String × Json)) (kv : String × Json) =>
          objSet a (jsKeyOf (some (Json.str kv.1), kv.2).1)
            (some (Json.str kv.1), kv.2).2) =
          (fun a kv => objSet a kv.1 kv.2) := by
        funext a kv
        rfl
      rw [he]
      exact objDedup_of_unique hku
    rw [hfold]
    simp only [mkChain]
    have heff : effStateSize (some c.stateSize) = c.stateSize := by
      simp only [Bool.not_eq_true'] at hf
      simp [effStateSize, hf]
    rw [heff, ← hm]
  | null => rw [hm] at hmod; exact Bool.noConfusion hmod
  | bool b => rw [hm] at hmod; exact Bool.noConfusion hmod
  | num n => rw [hm] at hmod; exact Bool.noConfusion hmod
  | str s => rw [hm] at hmod; exact Bool.noConfusion hmod
  | arr xs => rw [hm] at hmod; exact Bool.noConfusion hmod

/-- C2: for every chain whose `stateSize` is an integer `>= 1` and whose
model is a well-formed mapping from state keys to mappings from follow keys
to record objects with JSON-representable (unique-keyed) values,
deserialising its serialisation returns exactly the original chain — equal
`stateSize` and a model equal as a `key -> key -> record` structure (here
even with insertion order preserved). -/
theorem c2_serialize_roundtrip (c : Chain) (n : Int) (hn : 1 ≤ n)
    (hss : c.stateSize = Json.num n)
    (hm : (match c.model with
      | Json.obj mfs => keysUnique (mfs.map Prod.fst) && modelCanonB mfs
      | _ => false) = true) :
    Chain.fromJSON (serializeChain c) = some c := by
  apply serialize_roundtrip_canon
  simp only [chainCanonB, Bool.and_eq_true]
  refine ⟨⟨?_, ?_⟩, hm⟩
  · rw [hss]
    simp only [jsFalsy, Bool.not_eq_true']
    simp only [beq_eq_false_iff_ne, ne_eq]
    omega
  · rw [hss]
    rfl

/-- Chain used by the C2 witness. -/
def c2Chain : Chain :=
  { stateSize := Json.num 2,
    model := Json.obj [("[\"a\"]",
      Json.obj [("\"b\"", recVC (Json.str "b") 1)])] }

/-- Witness for C2: a concrete canonical chain with `stateSize = 2`
round-trips exactly through serialisation. -/
theorem c2_serialize_roundtrip_witness :
    (1 : Int) ≤ 2 ∧ c2Chain.stateSize = Json.num 2 ∧
    (match c2Chain.model with
      | Json.obj mfs => keysUnique (mfs.map Prod.fst) && modelCanonB mfs
      | _ => false) = true ∧
    Chain.fromJSON (serializeChain c2Chain) = some c2Chain :=
  ⟨by decide, rfl, by decide,
    c2_serialize_roundtrip c2Chain 2 (by decide) rfl (by decide)⟩

/-- C9: serialise-then-deserialise is idempotent: whenever deserialising a
serialised chain succeeds, the resulting chain serialises and deserialises
to itself exactly (structural equality of `stateSize` and of the model). -/
theorem c9_serialize_idempotent (c d : Chain)
    (h : Chain.fromJSON (serializeChain c) = some d) :
    Chain.fromJSON (serializeChain d) = some d :=
  serialize_roundtrip_canon d (fromJSON_canon h)

/-- Chain used by the C9 witness (not canonical: falsy `stateSize ""`). -/
def c9Chain : Chain := { stateSize := Json.str "", model := Json.obj [] }

/-- Witness for C9: deserialising the serialised `c9Chain` yields the
defaulted chain, which is a fixed point of serialise-then-deserialise. -/
theorem c9_serialize_idempotent_witness :
    Chain.fromJSON (serializeChain c9Chain) =
      some { stateSize := Json.num 1, model := Json.obj [] } ∧
    Chain.fromJSON (serializeChain
        { stateSize := Json.num 1, model := (Json.obj [] : Json) }) =
      some { stateSize := Json.num 1, model := Json.obj [] } :=
  ⟨by decide, c9_serialize_idempotent c9Chain
    { stateSize := Json.num 1, model := Json.obj [] } (by decide)⟩
